import Mathlib

/-!
Verification development for the xmarket repository.

Shallow embedding of the back-end data plane:
* `src/orderbook/engine.py`, `src/orderbook/models.py`, `src/orderbook/pressure.py`
* `src/backend/blender.py`, `src/backend/ingest.py`, `src/backend/admin.py`
* `src/backend/app/blender.py`, `src/backend/app/reality_adapter.py`
* `src/backend/app/scoring/reality_engine.py`

Python floats are modelled as `ℚ` where the code is purely arithmetic and as
`ℝ` where transcendental functions (`math.exp`, `math.log`) appear.
Python's `round(x, 2)` is modelled with Mathlib's `round` (the two differ only
at exact half-cent ties, which never arise in the statements below).
-/

namespace XMarket

/-- `config/constants.py`: EWMA_ALPHA = 0.25. -/
def EWMA_ALPHA : ℚ := 1/4

/-- `config/constants.py`: SUSPICIOUS_DELTA = 15. -/
def SUSPICIOUS_DELTA : ℚ := 15

/-- `config/constants.py`: DELTA_CAP = 20. -/
def DELTA_CAP : ℚ := 20

/-- `config/constants.py`: TAU_SECONDS = 48 * 3600. -/
def TAU_SECONDS : ℝ := 48 * 3600

/-- `reality_engine.py`: NEUTRAL_SCORE = 50.0. -/
def NEUTRAL_SCORE : ℝ := 50

/-- clamp to [0, 100] on rationals — `max(0.0, min(100.0, x))`. -/
def clampQ (x : ℚ) : ℚ := max 0 (min 100 x)

/-- clamp to [0, 100] on reals — `max(MIN_SCORE, min(MAX_SCORE, x))`. -/
def clampR (x : ℝ) : ℝ := max 0 (min 100 x)

/-- Python `round(x, 2)` on rationals (round-half-even ties never arise here). -/
def round2 (x : ℚ) : ℚ := (round (x * 100) : ℤ) / 100

/-- Python `round(x, 2)` on reals. -/
noncomputable def round2R (x : ℝ) : ℝ := ((round (x * 100) : ℤ) : ℝ) / 100

/-! ### Association lists

Python `dict`s are modelled as association lists with unique keys.
`alGet`/`alSet`/`alDel`/ mirror `d[k]`, `d[k] = v` (existing key),
`del d[k]`; inserting a fresh key is cons. -/

def alGet {α β : Type} [DecidableEq α] (m : List (α × β)) (k : α) : Option β :=
  match m with
  | [] => none
  | e :: rest => if e.1 = k then some e.2 else alGet rest k

def alSet {α β : Type} [DecidableEq α] (m : List (α × β)) (k : α) (v : β) :
    List (α × β) :=
  match m with
  | [] => []
  | e :: rest => if e.1 = k then (k, v) :: alSet rest k v else e :: alSet rest k v

def alDel {α β : Type} [DecidableEq α] (m : List (α × β)) (k : α) : List (α × β) :=
  match m with
  | [] => []
  | e :: rest => if e.1 = k then alDel rest k else e :: alDel rest k

def alKeys {α β : Type} (m : List (α × β)) : List α := m.map Prod.fst

theorem alGet_alSet_self {α β : Type} [DecidableEq α] (m : List (α × β)) (k : α)
    (v : β) (h : (alGet m k).isSome) : alGet (alSet m k v) k = some v := by
  induction m with
  | nil => simp [alGet] at h
  | cons e rest ih =>
    by_cases he : e.1 = k
    · simp [alGet, alSet, he]
    · simp only [alGet, if_neg he] at h
      simp [alGet, alSet, he, ih h]

theorem alGet_alSet_ne {α β : Type} [DecidableEq α] (m : List (α × β)) (k k' : α)
    (v : β) (h : k ≠ k') : alGet (alSet m k v) k' = alGet m k' := by
  induction m with
  | nil => simp [alGet, alSet]
  | cons e rest ih =>
    by_cases he : e.1 = k
    · simp [alGet, alSet, he, h, ih]
    · by_cases he' : e.1 = k'
      · simp [alGet, alSet, he, he', Ne.symm h]
      · simp [alGet, alSet, he, he', ih]

theorem alGet_alDel_self {α β : Type} [DecidableEq α] (m : List (α × β)) (k : α) :
    alGet (alDel m k) k = none := by
  induction m with
  | nil => simp [alGet, alDel]
  | cons e rest ih =>
    by_cases he : e.1 = k
    · simp [alDel, he, ih]
    · simp [alDel, alGet, he, ih]

theorem alGet_alDel_ne {α β : Type} [DecidableEq α] (m : List (α × β)) (k k' : α)
    (h : k ≠ k') : alGet (alDel m k) k' = alGet m k' := by
  induction m with
  | nil => simp [alGet, alDel]
  | cons e rest ih =>
    by_cases he : e.1 = k
    · have hek' : e.1 ≠ k' := by rw [he]; exact h
      simp [alDel, alGet, he, hek', ih, h]
    · by_cases he' : e.1 = k'
      · simp [alDel, alGet, he, he', Ne.symm h]
      · simp [alDel, alGet, he, he', ih]

/-! ## `src/backend/blender.py` — score computation -/

/-- `blender.compute_new_reality_score`:
`new = round(clamp(current + alpha * impact, 0, 100), 2)`. -/
def compute_new_reality_score (current_score : ℚ) (impact_points : ℚ)
    (alpha : ℚ := EWMA_ALPHA) : ℚ :=
  round2 (clampQ (current_score + alpha * impact_points))

/-- `blender.compute_confidence`:
`min(1.0, round(log(1 + num_independent_sources) * avg_trust, 2))`. -/
noncomputable def compute_confidence (num_independent_sources : ℕ) (avg_trust : ℝ) : ℝ :=
  min 1 (round2R (Real.log (1 + (num_independent_sources : ℝ)) * avg_trust))

/-- `blender.blend_final_price`:
`round(clamp(market_weight * market_price + reality_weight * reality_score), 2)`. -/
def blend_final_price (reality_score market_price market_weight reality_weight : ℚ) :
    ℚ :=
  round2 (clampQ (market_weight * market_price + reality_weight * reality_score))

/-! ## `src/orderbook/models.py` and `src/orderbook/engine.py` -/

/-- `models.OrderSide`. -/
inductive Side where
  | buy
  | sell
deriving DecidableEq, Repr

/-- `models.OrderType`. -/
inductive OType where
  | limit
  | market
deriving DecidableEq, Repr

/-- `models.OrderStatus` (`opn` = OPEN, `part` = PARTIAL). -/
inductive OStatus where
  | opn
  | part
  | filled
  | cancelled
deriving DecidableEq, Repr

/-- `engine.Order` — the engine's internal order representation.
Order ids and timestamps are naturals; prices and quantities rationals. -/
structure Order where
  order_id : ℕ
  side : Side
  price : ℚ
  qty : ℚ
  filled : ℚ
  user_id : ℕ
  created_at : ℕ
  status : OStatus
deriving DecidableEq, Repr

/-- `Order.remaining = qty - filled`. -/
def Order.remaining (o : Order) : ℚ := o.qty - o.filled

/-- `engine.OrderBook` for one symbol: price-keyed FIFO queues, sorted price
lists, and the `order_id -> order` lookup dict.  In the source the dict holds
aliases of the queue entries; here the copies are kept in sync explicitly at
every mutation the source performs through an alias. -/
structure Book where
  bids : List (ℚ × List Order)
  asks : List (ℚ × List Order)
  bid_prices : List ℚ
  ask_prices : List ℚ
  orders : List (ℕ × Order)
deriving DecidableEq, Repr

def Book.empty : Book := ⟨[], [], [], [], []⟩

/-- `engine.OrderBook._update_status`. -/
def updateStatus (o : Order) : Order :=
  if o.qty ≤ o.filled then { o with status := .filled }
  else if 0 < o.filled then { o with status := .part }
  else { o with status := .opn }

/-- One trade tuple as produced by the matching loops:
`(buy_order, sell_order, qty)`.  The source appends aliased `Order` objects of
which only the immutable fields (`order_id`, `price`) are read afterwards; here
each side is recorded as its snapshot just before this fill. -/
structure Trade3 where
  buyO : Order
  sellO : Order
  qty : ℚ
deriving DecidableEq, Repr

/-- The inner `while order.remaining > 0 and level_orders:` loop shared by
`_match_buy` and `_match_sell`: fills the aggressor against one FIFO price
level, returning the updated aggressor, the remaining queue, the updated
`orders` dict and the `(aggressor, maker, qty)` fills in order.  A fully
filled maker is popped and deleted from `orders`; a partially filled maker
stays at the head (its dict alias now shows the new fill) and the loop breaks. -/
def fillLevel (agg : Order) (q : List Order) (orders : List (ℕ × Order)) :
    Order × List Order × List (ℕ × Order) × List (Order × Order × ℚ) :=
  match q with
  | [] => (agg, [], orders, [])
  | m :: rest =>
    if 0 < agg.remaining then
      let tq := min agg.remaining m.remaining
      let agg' := updateStatus { agg with filled := agg.filled + tq }
      let m' := updateStatus { m with filled := m.filled + tq }
      if m'.status = .filled then
        let r := fillLevel agg' rest (alDel orders m.order_id)
        (r.1, r.2.1, r.2.2.1, (agg, m, tq) :: r.2.2.2)
      else
        (agg', m' :: rest, alSet orders m.order_id m', [(agg, m, tq)])
    else (agg, m :: rest, orders, [])

/-- `engine.OrderBook._match_buy`: iterate the ask ladder best (lowest) price
first while the aggressor still has remaining quantity and its limit price
crosses; drained levels are deleted from `asks` and popped from `ask_prices`.
(The source's outer `while` re-checks a non-drained level once more, but a
maker left partially filled forces `order.remaining == 0`, so that re-check
always exits the loop; the recursion returns directly in that case.)
Trades are emitted as `(order, ask_order, qty)`. -/
def matchBuyGo (o : Order) (asks : List (ℚ × List Order))
    (orders : List (ℕ × Order)) (prices : List ℚ) :
    Order × List (ℚ × List Order) × List (ℕ × Order) × List ℚ ×
      List (Order × Order × ℚ) :=
  match prices with
  | [] => (o, asks, orders, [], [])
  | best :: rest =>
    if 0 < o.remaining ∧ ¬ o.price < best then
      let q := (alGet asks best).getD []
      let f := fillLevel o q orders
      if f.2.1 = [] then
        let r := matchBuyGo f.1 (alDel asks best) f.2.2.1 rest
        (r.1, r.2.1, r.2.2.1, r.2.2.2.1, f.2.2.2 ++ r.2.2.2.2)
      else
        (f.1, alSet asks best f.2.1, f.2.2.1, best :: rest, f.2.2.2)
    else (o, asks, orders, best :: rest, [])

/-- `engine.OrderBook._match_sell`: the bid-side mirror of `_match_buy`;
trades are emitted as `(bid_order, order, qty)`. -/
def matchSellGo (o : Order) (bids : List (ℚ × List Order))
    (orders : List (ℕ × Order)) (prices : List ℚ) :
    Order × List (ℚ × List Order) × List (ℕ × Order) × List ℚ ×
      List (Order × Order × ℚ) :=
  match prices with
  | [] => (o, bids, orders, [], [])
  | best :: rest =>
    if 0 < o.remaining ∧ ¬ o.price > best then
      let q := (alGet bids best).getD []
      let f := fillLevel o q orders
      if f.2.1 = [] then
        let r := matchSellGo f.1 (alDel bids best) f.2.2.1 rest
        (r.1, r.2.1, r.2.2.1, r.2.2.2.1,
          (f.2.2.2.map (fun t => (t.2.1, t.1, t.2.2))) ++ r.2.2.2.2)
      else
        (f.1, alSet bids best f.2.1, f.2.2.1, best :: rest,
          f.2.2.2.map (fun t => (t.2.1, t.1, t.2.2)))
    else (o, bids, orders, best :: rest, [])

/-- `_match_buy` at the book level. -/
def matchBuy (o : Order) (b : Book) :
    Order × Book × List (Order × Order × ℚ) :=
  let r := matchBuyGo o b.asks b.orders b.ask_prices
  (r.1, { b with asks := r.2.1, orders := r.2.2.1, ask_prices := r.2.2.2.1 },
    r.2.2.2.2)

/-- `_match_sell` at the book level. -/
def matchSell (o : Order) (b : Book) :
    Order × Book × List (Order × Order × ℚ) :=
  let r := matchSellGo o b.bids b.orders b.bid_prices
  (r.1, { b with bids := r.2.1, orders := r.2.2.1, bid_prices := r.2.2.2.1 },
    r.2.2.2.2)

/-- `engine.OrderBook._add_to_book`: create the price level if absent
(appending the price and re-sorting the price list — descending for bids,
ascending for asks) and append the order at the tail of its level's queue. -/
def addToBook (b : Book) (o : Order) : Book :=
  if o.side = .buy then
    match alGet b.bids o.price with
    | none =>
        { b with bids := (o.price, [o]) :: b.bids,
                 bid_prices :=
                   (b.bid_prices ++ [o.price]).insertionSort (fun a c => c ≤ a) }
    | some l => { b with bids := alSet b.bids o.price (l ++ [o]) }
  else
    match alGet b.asks o.price with
    | none =>
        { b with asks := (o.price, [o]) :: b.asks,
                 ask_prices :=
                   (b.ask_prices ++ [o.price]).insertionSort (fun a c => a ≤ c) }
    | some l => { b with asks := alSet b.asks o.price (l ++ [o]) }

/-- `engine.OrderBook.add_order`: match, then rest any remainder (the engine
has no market-order special case — every order is matched and rested by the
same limit-order logic). -/
def addOrder (b : Book) (o : Order) :
    Book × Order × List (Order × Order × ℚ) :=
  let r := if o.side = .buy then matchBuy o b else matchSell o b
  if 0 < r.1.remaining ∧ r.1.status ≠ .filled then
    let b' := addToBook r.2.1 r.1
    ({ b' with orders := (r.1.order_id, r.1) :: b'.orders }, r.1, r.2.2)
  else (r.2.1, r.1, r.2.2)

/-- `engine.OrderBook.cancel_order`: look the order up in the dict; if found,
remove it from its price level (deleting the level and its price-list entry if
it empties), delete it from the dict and mark it cancelled. -/
def cancelOrder (b : Book) (order_id : ℕ) : Book × Option Order :=
  match alGet b.orders order_id with
  | none => (b, none)
  | some o =>
    let b1 :=
      if o.side = .buy then
        match alGet b.bids o.price with
        | none => b
        | some l =>
          let l' := l.erase o
          if l' = [] then
            { b with bids := alDel b.bids o.price,
                     bid_prices := b.bid_prices.erase o.price }
          else { b with bids := alSet b.bids o.price l' }
      else
        match alGet b.asks o.price with
        | none => b
        | some l =>
          let l' := l.erase o
          if l' = [] then
            { b with asks := alDel b.asks o.price,
                     ask_prices := b.ask_prices.erase o.price }
          else { b with asks := alSet b.asks o.price l' }
    ({ b1 with orders := alDel b1.orders order_id },
      some { o with status := .cancelled })

/-- `models.OrderCreate` — the pydantic admission schema.  `price` is a
*required* field (`Field(..., gt=0)`) for both order types, so it is present
on market orders too; `qty` must be positive; `symbol` 1..10 characters. -/
structure OrderCreate where
  symbol : String
  side : Side
  type : OType
  price : Option ℚ
  qty : ℚ
  user_id : ℕ
deriving DecidableEq, Repr

/-- Pydantic validation of `OrderCreate`: all fields present,
`price > 0`, `qty > 0`, `1 ≤ len(symbol) ≤ 10`.  (No upper bound on price and
no per-type price rule exist in the schema.) -/
def orderCreateValid (oc : OrderCreate) : Bool :=
  1 ≤ oc.symbol.length && oc.symbol.length ≤ 10 &&
    (match oc.price with
     | none => false
     | some p => 0 < p) &&
    0 < oc.qty

/-- `engine.Engine.place_order`: build the internal order (status OPEN,
filled 0) and run `add_order`; then convert each raw trade `(buy, sell, qty)`
to a response whose price is `sell.price` for a buy aggressor and `buy.price`
otherwise — the maker's price. -/
structure TradeR where
  price : ℚ
  qty : ℚ
  buy_order_id : ℕ
  sell_order_id : ℕ
deriving DecidableEq, Repr

/-- The internal order `Engine.place_order` constructs. -/
def mkOrder (oc : OrderCreate) (fresh_id : ℕ) (now : ℕ) : Order :=
  { order_id := fresh_id, side := oc.side, price := oc.price.getD 0,
    qty := oc.qty, filled := 0, user_id := oc.user_id, created_at := now,
    status := .opn }

def placeOrder (b : Book) (oc : OrderCreate) (fresh_id : ℕ) (now : ℕ) :
    Book × Order × List TradeR :=
  let o : Order := mkOrder oc fresh_id now
  let r := addOrder b o
  (r.1, r.2.1,
    r.2.2.map (fun t =>
      { price := if o.side = .buy then t.2.1.price else t.1.price,
        qty := t.2.2,
        buy_order_id := t.1.order_id,
        sell_order_id := t.2.1.order_id }))

/-! ## `src/orderbook/pressure.py` -/

/-- `pressure.calculate_market_price`: mid if both sides, else the single best
side, else 50. -/
def calculate_market_price (b : Book) : ℚ :=
  match b.bid_prices.head?, b.ask_prices.head? with
  | some bb, some ba => (bb + ba) / 2
  | some bb, none => bb
  | none, some ba => ba
  | none, none => 50

/-! ## `src/backend/` persisted state (tables used by ingest/admin/blender) -/

/-- One row of the `stocks` table (the fields the data plane reads). -/
structure StockRow where
  market_weight : ℚ
  reality_weight : ℚ
deriving DecidableEq, Repr

/-- One row of the `scores` table.  `confidence` is real-valued because
`compute_confidence` applies `math.log`. -/
structure ScoreRow where
  reality_score : ℚ
  final_price : ℚ
  confidence : ℝ
  last_updated : ℚ

/-- One row of the `events` table (the fields the data plane reads). -/
structure EventRow where
  symbol : String
  impact_points : ℚ
  processed : Bool
deriving DecidableEq, Repr

/-- One row of the append-only `score_changes` table. -/
structure ScoreChangeRow where
  symbol : String
  old_score : ℚ
  new_score : ℚ
  delta : ℚ
  event_id : String
deriving DecidableEq, Repr

/-- One row of the `llm_audit` table.  `approved` is a plain boolean: pending
records are created with `approved = false` (`ingest.create_llm_audit`). -/
structure AuditRow where
  event_id : String
  symbol : String
  impact : ℚ
  approved : Bool
  approved_by : Option String
  approved_at : Option ℚ
deriving DecidableEq, Repr

/-- The backend database state. -/
structure DB where
  stocks : List (String × StockRow)
  scores : List (String × ScoreRow)
  events : List (String × EventRow)
  score_changes : List ScoreChangeRow
  audits : List (ℕ × AuditRow)

/-- An incoming `RealityEventRequest` (schema-valid payload). -/
structure RealityEvent where
  event_id : String
  stocks : List String
  impact_points : ℚ
  num_independent_sources : ℕ
  trusts : List ℝ

/-! ## `src/backend/blender.py` — `apply_event_to_scores` -/

/-- `blender.get_current_score` / `get_stock_weights` read the rows;
`apply_event_to_scores` initialises a missing score at (50, 50, 0.5), computes
the new reality score, confidence and blended final price, updates `scores`
(bumping `last_updated` to now), appends a `score_changes` row and marks the
event processed.  `market_price` is fetched over HTTP in the source and is a
parameter here. -/
noncomputable def apply_event_to_scores (db : DB) (e : RealityEvent)
    (market_price : ℚ) (now : ℚ) : DB × ℚ × ℚ :=
  let symbol := e.stocks.headI
  let dbInit :=
    match alGet db.scores symbol with
    | some _ => db
    | none =>
        { db with scores :=
            (symbol, ⟨50, 50, (0.5 : ℝ), now⟩) :: db.scores }
  let current := (alGet dbInit.scores symbol).getD ⟨50, 50, (0.5 : ℝ), now⟩
  let old_score := current.reality_score
  let new_score := compute_new_reality_score old_score e.impact_points
  let delta := new_score - old_score
  let avg_trust := (e.trusts.sum) / (e.trusts.length : ℝ)
  let confidence := compute_confidence e.num_independent_sources avg_trust
  let weights := (alGet dbInit.stocks symbol).getD ⟨1/2, 1/2⟩
  let final_price :=
    blend_final_price new_score market_price weights.market_weight
      weights.reality_weight
  let scores1 := alSet dbInit.scores symbol ⟨new_score, final_price, confidence, now⟩
  let db1 := { dbInit with scores := scores1 }
  let changes1 := db1.score_changes ++ [⟨symbol, old_score, new_score, delta, e.event_id⟩]
  let db2 := { db1 with score_changes := changes1 }
  let evRow := (alGet db2.events e.event_id).getD ⟨symbol, e.impact_points, false⟩
  let events1 := alSet db2.events e.event_id { evRow with processed := true }
  let db3 := { db2 with events := events1 }
  (db3, new_score, final_price)

/-! ## `src/backend/ingest.py` — `ingest_reality_event` -/

/-- The observable ingest decision (`EventCreatedResponse`,
`EventDuplicateResponse`, `PendingReviewResponse`, or an `HTTPException`). -/
inductive IngestResult where
  | created (event_id : String)
  | duplicate (event_id : String)
  | pendingReview (event_id : String)
  | badRequest
deriving DecidableEq, Repr

/-- `ingest.event_exists`: `SELECT COUNT(*) FROM events WHERE event_id = ...`. -/
def event_exists (db : DB) (event_id : String) : Bool :=
  (alGet db.events event_id).isSome

/-- `ingest.validate_stocks_exist`: symbols not present in `stocks`. -/
def invalid_stocks (db : DB) (stocks : List String) : List String :=
  stocks.filter (fun s => (alGet db.stocks s).isNone)

/-- `ingest.persist_event`: insert the event keyed by its id, primary symbol
first, `processed = false`. -/
def persist_event (db : DB) (e : RealityEvent) : DB :=
  { db with events :=
      (e.event_id, ⟨e.stocks.headI, e.impact_points, false⟩) :: db.events }

/-- `ingest.create_llm_audit`: insert a pending audit row
(`approved = false`). -/
def create_llm_audit (db : DB) (e : RealityEvent) (fresh_id : ℕ) : DB :=
  { db with audits :=
      (fresh_id, ⟨e.event_id, e.stocks.headI, e.impact_points, false, none, none⟩)
        :: db.audits }

/-- `ingest.ingest_reality_event` after schema validation: idempotency check,
stock existence, suspicious-delta gate, then persist and apply. -/
noncomputable def ingest_reality_event (db : DB) (e : RealityEvent)
    (market_price : ℚ) (now : ℚ) (fresh_audit_id : ℕ) : IngestResult × DB :=
  if event_exists db e.event_id then (.duplicate e.event_id, db)
  else if invalid_stocks db e.stocks ≠ [] then (.badRequest, db)
  else if SUSPICIOUS_DELTA < |e.impact_points| then
    (.pendingReview e.event_id,
      persist_event (create_llm_audit db e fresh_audit_id) e)
  else
    (.created e.event_id,
      (apply_event_to_scores (persist_event db e) e market_price now).1)

/-! ## `src/backend/admin.py` — `approve_audit` -/

/-- The observable decision of `POST /api/v1/admin/audits/{id}/approve`. -/
inductive ApproveResult where
  | ok (status : String)
  | notFound
  | alreadyProcessed
deriving DecidableEq, Repr

/-- `admin.approve_audit`: 404 on unknown id; 409 when the stored `approved`
boolean is set; otherwise store the decision (with approver and timestamp)
and, on approval, mark the referenced event `processed = true`.  The scores
and score-change tables are never touched (the handler only re-flags the
event — see the source comment "For now, just update processed flag"). -/
def approve_audit (db : DB) (audit_id : ℕ) (approved : Bool)
    (approved_by : String) (now : ℚ) : ApproveResult × DB :=
  match alGet db.audits audit_id with
  | none => (.notFound, db)
  | some a =>
    if a.approved then (.alreadyProcessed, db)
    else
      let a' := { a with approved := approved, approved_by := some approved_by,
                         approved_at := some now }
      let db1 := { db with audits := alSet db.audits audit_id a' }
      if approved then
        match alGet db1.events a.event_id with
        | some ev =>
            let events1 := alSet db1.events a.event_id { ev with processed := true }
            (.ok "approved", { db1 with events := events1 })
        | none => (.ok "approved", db1)
      else (.ok "rejected", db1)

/-! ## `src/backend/app/blender.py` and `src/backend/app/reality_adapter.py`

The duplicated "app" service variant.  `constants.MIN_PRICE`/`MAX_PRICE` are
referenced from the shared constants module and taken at their schema defaults
0 and 100. -/

/-- `app.blender.compute_final_price`: reality-only fallback when no market
data; otherwise clamp both inputs, blend, clamp. -/
def compute_final_price (reality_score : ℚ) (market_price : Option ℚ)
    (market_weight reality_weight : ℚ) : ℚ :=
  match market_price with
  | none => reality_score
  | some mp =>
    let rs := clampQ reality_score
    let mp := clampQ mp
    clampQ (market_weight * mp + reality_weight * rs)

/-- `app.blender.apply_ewma_smoothing`:
`smoothed = alpha * new_price + (1 - alpha) * current_price`. -/
def apply_ewma_smoothing (current_price new_price : ℚ)
    (alpha : ℚ := EWMA_ALPHA) : ℚ :=
  alpha * new_price + (1 - alpha) * current_price

/-- The app-variant `scores` row (`app/models.py`), rational-valued: the
adapter path performs no transcendental arithmetic. -/
structure AScoreRow where
  reality_score : ℚ
  final_price : ℚ
  last_updated : ℚ
deriving DecidableEq, Repr

/-- `app.reality_adapter.apply_event_to_scores` on one symbol's rows:
`new_reality = clamp(old + impact)`; `raw_final = compute_final_price(...)`;
`new_final = apply_ewma_smoothing(old_final, raw_final)`; a `ScoreChange` row
is appended and the score row is updated with `last_updated = now`. -/
def adapter_apply_event_to_scores (score : AScoreRow) (stock : StockRow)
    (impact_points : ℚ) (market_price : Option ℚ) (event_id : String)
    (symbol : String) (now : ℚ) : AScoreRow × ScoreChangeRow :=
  let old_reality := score.reality_score
  let new_reality := clampQ (old_reality + impact_points)
  let raw_final :=
    compute_final_price new_reality market_price stock.market_weight
      stock.reality_weight
  let old_final := score.final_price
  let new_final := apply_ewma_smoothing old_final raw_final
  (⟨new_reality, new_final, now⟩,
    ⟨symbol, old_reality, new_reality, impact_points, event_id⟩)

/-! ## `src/backend/app/scoring/reality_engine.py` -/

/-- The `Score` row the scoring engine reads/writes (`stock_id` keyed;
real-valued because decay uses `math.exp`). -/
structure SRecord where
  score : ℝ
  confidence : ℝ
  last_updated : ℝ

/-- `reality_engine`: lazy decay toward neutral:
`decayed = current * exp(-(now - last)/TAU) + 50 * (1 - exp(...))`. -/
noncomputable def decayedScore (current : ℝ) (time_diff : ℝ) : ℝ :=
  let decay_factor := Real.exp (-(time_diff / TAU_SECONDS))
  current * decay_factor + NEUTRAL_SCORE * (1 - decay_factor)

/-- `RealityEngine.apply_event`: read the record (or initialise at neutral
with confidence 0.1), decay lazily, cap the event impact at ±DELTA_CAP, apply,
EWMA-smooth against the decayed value, clamp to [0,100], bump confidence by
`0.1 * log(1 + num_related_docs)` capped at 1, and persist with
`last_updated = now`.  Returns the new score and the persisted record. -/
noncomputable def RealityEngine.apply_event (record : Option SRecord) (now : ℝ)
    (event_points : ℝ) (num_related_docs : ℕ) : ℝ × SRecord :=
  let current_score := match record with
    | none => NEUTRAL_SCORE
    | some r => r.score
  let last_updated := match record with
    | none => now
    | some r => r.last_updated
  let confidence := match record with
    | none => (0.1 : ℝ)
    | some r => r.confidence
  let time_diff := now - last_updated
  let decay_factor := Real.exp (-(time_diff / TAU_SECONDS))
  let decayed_score := current_score * decay_factor +
    NEUTRAL_SCORE * (1 - decay_factor)
  let capped_points := max (-(20 : ℝ)) (min 20 event_points)
  let new_score_raw := decayed_score + capped_points
  let new_score := (1/4 : ℝ) * new_score_raw + (1 - 1/4) * decayed_score
  let new_score := clampR new_score
  let confidence_boost := (0.1 : ℝ) * Real.log (1 + (num_related_docs : ℝ))
  let new_confidence := min 1 (confidence + confidence_boost)
  (new_score, ⟨new_score, new_confidence, now⟩)

/-- The dictionary `RealityEngine.get_score` returns (score and metadata). -/
structure GetScoreView where
  score : ℝ
  confidence : ℝ
  last_updated : ℝ

/-- `RealityEngine.get_score`: read-only lazy decay.  The store (the `scores`
table keyed by `stock_id`) is returned untouched — the source performs no
update and no commit on this path. -/
noncomputable def RealityEngine.get_score (store : List (String × SRecord))
    (stock_id : String) (now : ℝ) :
    Option GetScoreView × List (String × SRecord) :=
  match alGet store stock_id with
  | none => (none, store)
  | some r =>
    let time_diff := now - r.last_updated
    let decay_factor := Real.exp (-(time_diff / TAU_SECONDS))
    let decayed_score := r.score * decay_factor +
      NEUTRAL_SCORE * (1 - decay_factor)
    let decayed_score := clampR decayed_score
    (some ⟨decayed_score, r.confidence, r.last_updated⟩, store)

/-! ## Claim C6 — idempotent ingest -/

/-- C6: Ingest is idempotent on `event_id`: a replay of an already-persisted
event returns Duplicate with the same `event_id` and leaves the whole database
state unchanged (no new event row, no ScoreChange, no score mutation), while
the first ingestion of a valid, non-suspicious event returns Created. -/
theorem ingest_idempotent_on_event_id (db : DB) (e : RealityEvent)
    (mp now : ℚ) (aid : ℕ) :
    (event_exists db e.event_id = true →
      ingest_reality_event db e mp now aid = (.duplicate e.event_id, db)) ∧
    (event_exists db e.event_id = false → invalid_stocks db e.stocks = [] →
      |e.impact_points| ≤ SUSPICIOUS_DELTA →
      (ingest_reality_event db e mp now aid).1 = .created e.event_id) := by
  constructor
  · intro h
    simp [ingest_reality_event, h]
  · intro h1 h2 h3
    simp [ingest_reality_event, h1, h2, not_lt.2 h3]

/-- Concrete database: one stock, one score row, one already-persisted event. -/
noncomputable def dbC6 : DB :=
  { stocks := [("ELON", ⟨1/2, 1/2⟩)],
    scores := [("ELON", ⟨50, 50, (0.5 : ℝ), 0⟩)],
    events := [("E1", ⟨"ELON", 10, true⟩)],
    score_changes := [],
    audits := [] }

/-- Witness for C6: replaying event `E1` against `dbC6` yields Duplicate and
returns the state untouched; a fresh valid event `E2` yields Created. -/
theorem ingest_idempotent_on_event_id_witness :
    ingest_reality_event dbC6 ⟨"E1", ["ELON"], 10, 1, [1]⟩ 50 0 17 =
      (.duplicate "E1", dbC6) ∧
    (ingest_reality_event dbC6 ⟨"E2", ["ELON"], 10, 1, [1]⟩ 50 0 17).1 =
      .created "E2" := by
  constructor
  · exact (ingest_idempotent_on_event_id dbC6 ⟨"E1", ["ELON"], 10, 1, [1]⟩
      50 0 17).1 (by simp [event_exists, dbC6, alGet])
  · exact (ingest_idempotent_on_event_id dbC6 ⟨"E2", ["ELON"], 10, 1, [1]⟩
      50 0 17).2 (by simp [event_exists, dbC6, alGet])
      (by simp [invalid_stocks, dbC6, alGet])
      (by norm_num [SUSPICIOUS_DELTA])

/-! ## Claim C7 — audit decided at most once -/

/-- Concrete database for the C7 counterexample: one pending audit. -/
def dbC7 : DB :=
  { stocks := [], scores := [],
    events := [("E1", ⟨"ELON", 18, false⟩)],
    score_changes := [],
    audits := [(1, ⟨"E1", "ELON", 18, false, none, none⟩)] }

/-- C7 counterexample: audit 1 is decided (rejected), yet a second decision on
the same record is *not* refused with `already_processed` — it succeeds as an
approval and mutates the record again, because a rejection stores
`approved = false`, the same encoding the handler uses for "pending". -/
theorem approve_audit_redecide_after_reject :
    (approve_audit dbC7 1 false "admin1" 0).1 = .ok "rejected" ∧
    (approve_audit (approve_audit dbC7 1 false "admin1" 0).2 1 true "admin2" 1).1
      ≠ .alreadyProcessed ∧
    (approve_audit (approve_audit dbC7 1 false "admin1" 0).2 1 true "admin2" 1).2.audits
      ≠ (approve_audit dbC7 1 false "admin1" 0).2.audits := by
  refine ⟨?_, ?_, ?_⟩ <;> decide

/-- C7 (amended): a record decided with `approved = true` is protected — any
later decision fails with `already_processed` and leaves the state unchanged;
but a record decided with `approved = false` (rejected) is stored back as
`approved = false`, which the handler cannot distinguish from pending, so a
later decision on it does **not** fail with `already_processed`. -/
theorem approve_audit_at_most_once (db : DB) (id : ℕ) (a : AuditRow)
    (h : alGet db.audits id = some a) :
    (∀ x y now, a.approved = true →
      approve_audit db id x y now = (.alreadyProcessed, db)) ∧
    (a.approved = false →
      ∀ y now x' y' now',
        (approve_audit (approve_audit db id false y now).2 id x' y' now').1
          ≠ .alreadyProcessed) := by
  constructor
  · intro x y now ha
    simp [approve_audit, h, ha]
  · intro ha y now x' y' now'
    have hsome : (alGet db.audits id).isSome := by simp [h]
    have hstate : (approve_audit db id false y now).2 =
        { db with audits := alSet db.audits id { a with approved := false, approved_by := some y, approved_at := some now } } := by
      simp [approve_audit, h, ha]
    rw [hstate]
    have hset :
        alGet (alSet db.audits id { a with approved := false, approved_by := some y, approved_at := some now }) id =
        some { a with approved := false, approved_by := some y, approved_at := some now } :=
      alGet_alSet_self _ _ _ hsome
    simp only [approve_audit, hset]
    by_cases hx : x' = true
    · cases he : alGet db.events a.event_id <;> simp [hx, he]
    · simp [hx]

/-- Witness for C7 (amended): in a state whose audit 2 is already approved a
second decision 409s and changes nothing, and rejecting pending audit 1 leaves
it decidable again. -/
def dbC7w : DB :=
  { stocks := [], scores := [],
    events := [],
    score_changes := [],
    audits := [(1, ⟨"E1", "ELON", 18, false, none, none⟩),
               (2, ⟨"E2", "ELON", 16, true, some "root", some 0⟩)] }

theorem approve_audit_at_most_once_witness :
    (approve_audit dbC7w 2 true "x" 5 = (.alreadyProcessed, dbC7w)) ∧
    (approve_audit (approve_audit dbC7w 1 false "y" 5).2 1 true "z" 6).1
      ≠ .alreadyProcessed := by
  constructor
  · exact (approve_audit_at_most_once dbC7w 2 ⟨"E2", "ELON", 16, true, some "root", some 0⟩
      (by simp [dbC7w, alGet])).1 true "x" 5 rfl
  · exact (approve_audit_at_most_once dbC7w 1 ⟨"E1", "ELON", 18, false, none, none⟩
      (by simp [dbC7w, alGet])).2 rfl "y" 5 true "z" 6

/-! ## Claim C1 — approval applies the event to scores -/

/-- Concrete state for C1: stock `ELON` at score 50/50, suspicious event `E1`
(impact +18) persisted unprocessed, audit 1 pending. -/
noncomputable def dbC1 : DB :=
  { stocks := [("ELON", ⟨1/2, 1/2⟩)],
    scores := [("ELON", ⟨50, 50, (0.5 : ℝ), 0⟩)],
    events := [("E1", ⟨"ELON", 18, false⟩)],
    score_changes := [],
    audits := [(1, ⟨"E1", "ELON", 18, false, none, none⟩)] }

/-- C1 is violated by the code: approving pending audit 1 marks event `E1`
`processed = true` but leaves the score row and the (empty) score_changes log
untouched, whereas handing the same event to the normal ingest/blender path
moves the reality score from 50 to 54.5. -/
theorem approve_audit_does_not_apply_event :
    (approve_audit dbC1 1 true "admin1" 0).1 = .ok "approved" ∧
    (approve_audit dbC1 1 true "admin1" 0).2.scores = dbC1.scores ∧
    (approve_audit dbC1 1 true "admin1" 0).2.score_changes = [] ∧
    ((alGet (approve_audit dbC1 1 true "admin1" 0).2.events "E1").map
      EventRow.processed) = some true ∧
    (apply_event_to_scores dbC1 ⟨"E1", ["ELON"], 18, 1, [1]⟩ 50 0).2.1 = 54.5 ∧
    (54.5 : ℚ) ≠ 50 := by
  refine ⟨?_, ?_, ?_, ?_, ?_, by norm_num⟩
  · rfl
  · rfl
  · rfl
  · rfl
  · show compute_new_reality_score (50 : ℚ) 18 EWMA_ALPHA = 54.5
    norm_num [compute_new_reality_score, EWMA_ALPHA, clampQ, round2]

/-! ## Claim C2 — smoothed blender commit -/

/-- A resting buy order at 90 for the C2 book. -/
def o90 : Order := ⟨5, .buy, 90, 10, 0, 1, 0, .opn⟩

/-- A book holding only bids, best bid 90. -/
def book90 : Book := ⟨[(90, [o90])], [], [90], [], [(5, o90)]⟩

/-- Database for C2: `ELON` with weights (0.6 market, 0.4 reality),
score row 50/50. -/
noncomputable def dbC2 : DB :=
  { stocks := [("ELON", ⟨3/5, 2/5⟩)],
    scores := [("ELON", ⟨50, 50, (0.5 : ℝ), 0⟩)],
    events := [], score_changes := [], audits := [] }

/-- C2 counterexample: with best_bid = 90 only, weights (0.6, 0.4),
reality 50 and previous final 50, the backend blender persists the *raw*
blend 74, not the EWMA-smoothed 56 the claim requires —
`blender.apply_event_to_scores` never smooths against the previous final. -/
theorem blender_commit_not_smoothed :
    calculate_market_price book90 = 90 ∧
    (apply_event_to_scores dbC2 ⟨"E2", ["ELON"], 0, 1, [1]⟩
      (calculate_market_price book90) 0).2.2 = 74 ∧
    (74 : ℚ) ≠ EWMA_ALPHA * 74 + (1 - EWMA_ALPHA) * 50 := by
  have hmp : calculate_market_price book90 = 90 := rfl
  refine ⟨hmp, ?_, by norm_num [EWMA_ALPHA]⟩
  have hstep : (apply_event_to_scores dbC2 ⟨"E2", ["ELON"], 0, 1, [1]⟩
      (calculate_market_price book90) 0).2.2
      = blend_final_price (compute_new_reality_score 50 0 EWMA_ALPHA)
          (calculate_market_price book90) (3/5) (2/5) := rfl
  rw [hstep, hmp]
  norm_num [blend_final_price, compute_new_reality_score, round2, clampQ,
    round_eq, EWMA_ALPHA]

/-- C2 (amended): the backend blender (`blender.apply_event_to_scores`)
persists the raw clamped blend with no smoothing; the EWMA-smoothed commit
`final_new = α·final_raw + (1−α)·final_prev` is implemented only on the app
adapter path (`reality_adapter.apply_event_to_scores`), where the example
commits 56. -/
theorem adapter_commit_is_ewma_smoothed (score : AScoreRow) (stock : StockRow)
    (impact : ℚ) (mp : Option ℚ) (eid sym : String) (now : ℚ) :
    (adapter_apply_event_to_scores score stock impact mp eid sym now).1.final_price
      = EWMA_ALPHA * compute_final_price (clampQ (score.reality_score + impact))
          mp stock.market_weight stock.reality_weight
        + (1 - EWMA_ALPHA) * score.final_price ∧
    (apply_event_to_scores dbC2 ⟨"E2", ["ELON"], 0, 1, [1]⟩ 90 0).2.2
      = blend_final_price (compute_new_reality_score 50 0 EWMA_ALPHA) 90 (3/5) (2/5) ∧
    (adapter_apply_event_to_scores ⟨50, 50, 0⟩ ⟨3/5, 2/5⟩ 0 (some 90) "E" "ELON" 0).1.final_price
      = 56 := by
  refine ⟨rfl, rfl, ?_⟩
  norm_num [adapter_apply_event_to_scores, compute_final_price,
    apply_ewma_smoothing, clampQ, EWMA_ALPHA]

/-! ## Claim C3 — writes decay before applying impact -/

/-- The claim's write discipline, following the spec wording (§4.2): decay the
stored score toward neutral by `exp(-age/TAU)`, apply the capped impact,
EWMA-smooth against the decayed value, clamp to [0,100]. -/
noncomputable def specScoreWrite (current age impact : ℝ) : ℝ :=
  let decayed := decayedScore current age
  let capped := max (-(20 : ℝ)) (min 20 impact)
  clampR ((1/4) * (decayed + capped) + (1 - 1/4) * decayed)

/-- Database for C3: `ELON` stored at score 70 with `last_updated = 0`. -/
noncomputable def dbC3 : DB :=
  { stocks := [("ELON", ⟨1/2, 1/2⟩)],
    scores := [("ELON", ⟨70, 70, (0.5 : ℝ), 0⟩)],
    events := [], score_changes := [], audits := [] }

/-- C3 counterexample: applying an impact-10 event 48 hours after
`last_updated` (age = 172800 s > 0), the backend write path persists
72.5 = round2(clamp(70 + 0.25·10)) — computed from the raw stored 70 —
while the claimed decayed-based computation yields 52.5 + 20·e⁻¹ ≠ 72.5. -/
theorem backend_write_ignores_decay :
    (apply_event_to_scores dbC3 ⟨"E3", ["ELON"], 10, 1, [1]⟩ 50 172800).2.1
      = 72.5 ∧
    specScoreWrite 70 172800 10 ≠ (72.5 : ℝ) := by
  constructor
  · have hstep : (apply_event_to_scores dbC3 ⟨"E3", ["ELON"], 10, 1, [1]⟩
        50 172800).2.1 = compute_new_reality_score 70 10 EWMA_ALPHA := rfl
    rw [hstep]
    norm_num [compute_new_reality_score, round2, clampQ, round_eq, EWMA_ALPHA]
  · have hu1 : Real.exp (-((172800 : ℝ) / TAU_SECONDS)) < 1 := by
      rw [Real.exp_lt_one_iff]
      norm_num [TAU_SECONDS]
    have hu0 : 0 < Real.exp (-((172800 : ℝ) / TAU_SECONDS)) := Real.exp_pos _
    simp only [specScoreWrite, decayedScore, clampR, NEUTRAL_SCORE]
    intro hEq
    set u := Real.exp (-((172800 : ℝ) / TAU_SECONDS)) with hu
    have hcap : max (-(20 : ℝ)) (min 20 (10 : ℝ)) = 10 := by norm_num
    rw [hcap] at hEq
    have hval : (1/4 : ℝ) * ((70 * u + 50 * (1 - u)) + 10) +
        (1 - 1/4) * (70 * u + 50 * (1 - u)) = 52.5 + 20 * u := by ring
    rw [hval] at hEq
    have hin : max 0 (min 100 (52.5 + 20 * u)) = 52.5 + 20 * u := by
      rw [min_eq_right (by nlinarith), max_eq_right (by nlinarith)]
    rw [hin] at hEq
    nlinarith

/-- C3 (amended): the decay → cap → EWMA → clamp order does govern writes
through `RealityEngine.apply_event` (the app scoring engine), which computes
the persisted score from the decayed value and bumps `last_updated = now`;
the backend blender write path is the one that skips decay. -/
theorem reality_engine_write_follows_spec_order (r : SRecord) (now pts : ℝ)
    (docs : ℕ) :
    ((RealityEngine.apply_event (some r) now pts docs).2).score
      = specScoreWrite r.score (now - r.last_updated) pts ∧
    ((RealityEngine.apply_event (some r) now pts docs).2).last_updated = now := by
  exact ⟨rfl, rfl⟩

/-! ## Claim C8 — confidence update -/

/-- Database for C8: `ELON` with stored confidence 0.9. -/
noncomputable def dbC8 : DB :=
  { stocks := [("ELON", ⟨1/2, 1/2⟩)],
    scores := [("ELON", ⟨50, 50, (0.9 : ℝ), 0⟩)],
    events := [], score_changes := [], audits := [] }

/-- C8 counterexample: applying an event with one source of trust 0.5
(`num_independent_sources = 1`) to a symbol whose stored confidence is 0.9,
the backend persists `min(1, round2(ln 2 · 0.5)) = 0.35` — which both differs
from the claimed `min(1, 0.9 + 0.1·ln 2)` and *decreases* the confidence. -/
theorem backend_confidence_decreases :
    ((alGet (apply_event_to_scores dbC8 ⟨"E8", ["ELON"], 1, 1, [(0.5 : ℝ)]⟩
        50 0).1.scores "ELON").map ScoreRow.confidence)
      = some ((0.35 : ℝ)) ∧
    (0.35 : ℝ) < 0.9 ∧
    (0.35 : ℝ) ≠ min 1 ((0.9 : ℝ) + 0.1 * Real.log (1 + 1)) := by
  have h1 := Real.log_two_gt_d9
  have h2 := Real.log_two_lt_d9
  have hget : ((alGet (apply_event_to_scores dbC8
        ⟨"E8", ["ELON"], 1, 1, [(0.5 : ℝ)]⟩ 50 0).1.scores "ELON").map
        ScoreRow.confidence)
      = some (compute_confidence 1
          (List.sum [(0.5 : ℝ)] / (([(0.5 : ℝ)].length : ℕ) : ℝ))) := rfl
  have hconf : compute_confidence 1
      (List.sum [(0.5 : ℝ)] / (([(0.5 : ℝ)].length : ℕ) : ℝ)) = 0.35 := by
    have hsimp : List.sum [(0.5 : ℝ)] / (([(0.5 : ℝ)].length : ℕ) : ℝ)
        = (0.5 : ℝ) := by simp
    rw [hsimp]
    have hround : round (Real.log (1 + ((1 : ℕ) : ℝ)) * (0.5 : ℝ) * 100)
        = (35 : ℤ) := by
      rw [show Real.log (1 + ((1 : ℕ) : ℝ)) = Real.log 2 by norm_num]
      rw [round_eq]
      rw [show Real.log 2 * (0.5 : ℝ) * 100 + 1/2 = 50 * Real.log 2 + 1/2 by ring]
      refine Int.floor_eq_iff.mpr ⟨by push_cast; nlinarith, by push_cast; nlinarith⟩
    simp only [compute_confidence, round2R, hround]
    norm_num
  refine ⟨hget.trans (by rw [hconf]), by norm_num, ?_⟩
  have hlog0 : 0 ≤ Real.log (1 + 1) := by
    rw [show ((1 : ℝ) + 1) = 2 by norm_num]
    exact Real.log_nonneg (by norm_num)
  have hge : (0.9 : ℝ) ≤ min 1 ((0.9 : ℝ) + 0.1 * Real.log (1 + 1)) := by
    refine le_min (by norm_num) (by nlinarith)
  intro hEq
  rw [← hEq] at hge
  norm_num at hge

/-- C8 (amended): the claimed update rule is implemented by
`RealityEngine.apply_event`, which persists
`min(1, confidence_prev + 0.1·ln(1 + num_related_docs))` — never decreasing
the confidence (its stored value being ≤ 1); the backend blender path instead
persists `min(1, round2(ln(1 + num_independent_sources)·avg_trust))`
independently of the previous value, which can decrease it. -/
theorem reality_engine_confidence_monotone (r : SRecord) (now pts : ℝ)
    (docs : ℕ) (h : r.confidence ≤ 1) :
    ((RealityEngine.apply_event (some r) now pts docs).2).confidence
      = min 1 (r.confidence + 0.1 * Real.log (1 + (docs : ℝ))) ∧
    r.confidence ≤ ((RealityEngine.apply_event (some r) now pts docs).2).confidence := by
  refine ⟨rfl, ?_⟩
  have hlog : 0 ≤ Real.log (1 + (docs : ℝ)) :=
    Real.log_nonneg (le_add_of_nonneg_right (Nat.cast_nonneg _))
  show r.confidence ≤ min 1 (r.confidence + 0.1 * Real.log (1 + (docs : ℝ)))
  exact le_min h (by nlinarith)

/-- Witness for the amended C8 at a concrete record. -/
noncomputable def recC8 : SRecord := ⟨50, 0.5, 0⟩

theorem reality_engine_confidence_monotone_witness :
    ((RealityEngine.apply_event (some recC8) 0 10 1).2).confidence
      = min 1 ((0.5 : ℝ) + 0.1 * Real.log (1 + ((1 : ℕ) : ℝ))) ∧
    (0.5 : ℝ) ≤ ((RealityEngine.apply_event (some recC8) 0 10 1).2).confidence :=
  reality_engine_confidence_monotone recC8 0 10 1 (by norm_num [recC8])

/-! ## Claim C9 — pure decayed read -/

/-- C9: `RealityEngine.get_score` is a pure observation: it returns the
decayed value `current·exp(-age/TAU) + 50·(1 - exp(-age/TAU))` (the clamp in
the source is a no-op for stored scores in [0,100]) and returns the score
store unchanged, so any two reads at the same `now` coincide. -/
theorem get_score_pure_decayed_read (store : List (String × SRecord))
    (sym : String) (now : ℝ) (r : SRecord) (h : alGet store sym = some r)
    (h0 : 0 ≤ r.score) (h100 : r.score ≤ 100) (hage : r.last_updated ≤ now) :
    (RealityEngine.get_score store sym now).1
      = some ⟨r.score * Real.exp (-((now - r.last_updated) / TAU_SECONDS))
          + 50 * (1 - Real.exp (-((now - r.last_updated) / TAU_SECONDS))),
          r.confidence, r.last_updated⟩ ∧
    (RealityEngine.get_score store sym now).2 = store := by
  constructor
  · set u := Real.exp (-((now - r.last_updated) / TAU_SECONDS)) with hu
    have hu0 : 0 < u := Real.exp_pos _
    have hu1 : u ≤ 1 := by
      rw [hu, Real.exp_le_one_iff]
      have htau : (0 : ℝ) < TAU_SECONDS := by norm_num [TAU_SECONDS]
      have : 0 ≤ (now - r.last_updated) / TAU_SECONDS :=
        div_nonneg (by linarith) (le_of_lt htau)
      linarith
    have hlow : 0 ≤ r.score * u + 50 * (1 - u) := by nlinarith
    have hhigh : r.score * u + 50 * (1 - u) ≤ 100 := by nlinarith
    simp only [RealityEngine.get_score, h, clampR, NEUTRAL_SCORE]
    rw [min_eq_right hhigh, max_eq_right hlow]
  · simp only [RealityEngine.get_score, h]

/-- Concrete store for the C9 witness. -/
noncomputable def storeC9 : List (String × SRecord) := [("X", ⟨70, 0.5, 0⟩)]

theorem get_score_pure_decayed_read_witness :
    (RealityEngine.get_score storeC9 "X" 0).1
      = some ⟨(70 : ℝ) * Real.exp (-(((0 : ℝ) - 0) / TAU_SECONDS))
          + 50 * (1 - Real.exp (-(((0 : ℝ) - 0) / TAU_SECONDS))), 0.5, 0⟩ ∧
    (RealityEngine.get_score storeC9 "X" 0).2 = storeC9 :=
  get_score_pure_decayed_read storeC9 "X" 0 ⟨70, 0.5, 0⟩ rfl
    (by norm_num) (by norm_num) (le_refl 0)

/-! ## Claim C5 — order admission and market remainders -/

/-- `add_order` returns the aggressor produced by the matching phase in both
branches (rested or not). -/
theorem addOrder_aggressor (b : Book) (o : Order) :
    (addOrder b o).2.1
      = (if o.side = Side.buy then matchBuy o b else matchSell o b).1 := by
  simp only [addOrder]
  split <;> (split <;> rfl)

/-- `add_order` rests an aggressor with remaining quantity and non-`filled`
status: the book's `orders` dict afterwards maps its id to it. -/
theorem addOrder_rests (b : Book) (o : Order)
    (h1 : 0 < (addOrder b o).2.1.remaining)
    (h2 : (addOrder b o).2.1.status ≠ OStatus.filled) :
    alGet (addOrder b o).1.orders (addOrder b o).2.1.order_id
      = some (addOrder b o).2.1 := by
  unfold addOrder at h1 h2 ⊢
  set r := if o.side = Side.buy then matchBuy o b else matchSell o b with hr
  by_cases hc : 0 < r.1.remaining ∧ r.1.status ≠ OStatus.filled
  · simp only [if_pos hc] at h1 h2 ⊢
    simp [alGet]
  · simp only [if_neg hc] at h1 h2
    exact absurd ⟨h1, h2⟩ hc

/-- C5 counterexample: the pydantic schema accepts a limit order priced 150
(no (0,100] bound), rejects a market order carrying no price (price is a
required field for *both* types), and the engine rests the remainder of an
unfillable market order in the book with status `open` — it is never
cancelled. -/
theorem order_admission_counterexample :
    orderCreateValid ⟨"ELON", .buy, .limit, some 150, 1, 7⟩ = true ∧
    orderCreateValid ⟨"ELON", .buy, .market, none, 1, 7⟩ = false ∧
    (placeOrder Book.empty ⟨"ELON", .buy, .market, some 60, 5, 7⟩ 1 0).2.1.status
      = .opn ∧
    alGet (placeOrder Book.empty ⟨"ELON", .buy, .market, some 60, 5, 7⟩ 1 0).1.orders 1
      = some (placeOrder Book.empty ⟨"ELON", .buy, .market, some 60, 5, 7⟩ 1 0).2.1 := by
  have hagg : (placeOrder Book.empty ⟨"ELON", .buy, .market, some 60, 5, 7⟩ 1 0).2.1
      = ⟨1, .buy, 60, 5, 0, 7, 0, .opn⟩ := by
    show (addOrder Book.empty ⟨1, .buy, 60, 5, 0, 7, 0, .opn⟩).2.1 = _
    rw [addOrder_aggressor]
    simp [matchBuy, matchBuyGo, Book.empty]
  have h4 : alGet (addOrder Book.empty (⟨1, .buy, 60, 5, 0, 7, 0, .opn⟩ : Order)).1.orders
      ((addOrder Book.empty (⟨1, .buy, 60, 5, 0, 7, 0, .opn⟩ : Order)).2.1.order_id)
      = some ((addOrder Book.empty (⟨1, .buy, 60, 5, 0, 7, 0, .opn⟩ : Order)).2.1) := by
    refine addOrder_rests _ _ ?_ ?_
    · rw [addOrder_aggressor]
      norm_num [matchBuy, matchBuyGo, Book.empty, Order.remaining]
    · rw [addOrder_aggressor]
      simp [matchBuy, matchBuyGo, Book.empty]
  refine ⟨by decide, by decide, by rw [hagg], ?_⟩
  show alGet (addOrder Book.empty (⟨1, .buy, 60, 5, 0, 7, 0, .opn⟩ : Order)).1.orders 1
      = some ((addOrder Book.empty (⟨1, .buy, 60, 5, 0, 7, 0, .opn⟩ : Order)).2.1)
  have hid : ((addOrder Book.empty (⟨1, .buy, 60, 5, 0, 7, 0, .opn⟩ : Order)).2.1.order_id) = 1 := by
    rw [addOrder_aggressor]
    simp [matchBuy, matchBuyGo, Book.empty]
  rw [hid] at h4
  exact h4

/-- C5 (amended): admission requires `qty > 0` and a *present*, positive
price for every order — market orders included — with no upper bound of 100;
and the engine rests any order whose matching leaves remaining quantity and a
non-`filled` status, market or limit alike (no remainder-cancellation). -/
theorem order_admission_requires_positive_price (oc : OrderCreate) (b : Book)
    (o : Order) :
    (orderCreateValid oc = true ↔
      (1 ≤ oc.symbol.length ∧ oc.symbol.length ≤ 10 ∧
       (∃ p, oc.price = some p ∧ 0 < p) ∧ 0 < oc.qty)) ∧
    (0 < (addOrder b o).2.1.remaining → (addOrder b o).2.1.status ≠ .filled →
      alGet (addOrder b o).1.orders (addOrder b o).2.1.order_id
        = some (addOrder b o).2.1) := by
  constructor
  · cases hp : oc.price with
    | none => simp [orderCreateValid, hp]
    | some p =>
      simp [orderCreateValid, hp, Bool.and_eq_true, decide_eq_true_iff,
        and_assoc]
  · exact fun h1 h2 => addOrder_rests b o h1 h2

/-- A fresh limit buy used for the C5 witness. -/
def oC5 : Order := ⟨9, .buy, 50, 3, 0, 1, 0, .opn⟩

theorem order_admission_requires_positive_price_witness :
    (orderCreateValid ⟨"ELON", .sell, .limit, some 60, 2, 3⟩ = true ↔
      (1 ≤ ("ELON" : String).length ∧ ("ELON" : String).length ≤ 10 ∧
       (∃ p, (some (60 : ℚ) : Option ℚ) = some p ∧ 0 < p) ∧ 0 < (2 : ℚ))) ∧
    alGet (addOrder Book.empty oC5).1.orders (addOrder Book.empty oC5).2.1.order_id
      = some (addOrder Book.empty oC5).2.1 := by
  constructor
  · exact (order_admission_requires_positive_price
      ⟨"ELON", .sell, .limit, some 60, 2, 3⟩ Book.empty oC5).1
  · exact (order_admission_requires_positive_price
      ⟨"ELON", .sell, .limit, some 60, 2, 3⟩ Book.empty oC5).2
      (by rw [addOrder_aggressor]
          norm_num [matchBuy, matchBuyGo, Book.empty, oC5, Order.remaining])
      (by rw [addOrder_aggressor]
          simp [matchBuy, matchBuyGo, Book.empty, oC5])

/-! ## Claim C4 — matching: quantities, maker price, price-time priority -/

/-- `_update_status` only touches the status field. -/
theorem updateStatus_id (o : Order) : (updateStatus o).order_id = o.order_id := by
  unfold updateStatus; split_ifs <;> rfl

theorem updateStatus_price (o : Order) : (updateStatus o).price = o.price := by
  unfold updateStatus; split_ifs <;> rfl

theorem updateStatus_side (o : Order) : (updateStatus o).side = o.side := by
  unfold updateStatus; split_ifs <;> rfl

/-- Every fill recorded by the inner level loop trades
`min(aggressor remaining, maker remaining)`, both taken at match time. -/
theorem fillLevel_qty (agg : Order) (q : List Order)
    (orders : List (ℕ × Order)) :
    ∀ t ∈ (fillLevel agg q orders).2.2.2,
      t.2.2 = min t.1.remaining t.2.1.remaining := by
  induction q generalizing agg orders with
  | nil => intro t ht; simp [fillLevel] at ht
  | cons m rest ih =>
    intro t ht
    by_cases hg : 0 < agg.remaining
    · simp only [fillLevel, if_pos hg] at ht
      by_cases hm : (updateStatus
          { m with filled := m.filled + min agg.remaining m.remaining }).status
          = OStatus.filled
      · rw [if_pos hm] at ht
        rcases List.mem_cons.mp ht with h | h
        · rw [h]
        · exact ih _ _ t h
      · rw [if_neg hm] at ht
        rcases List.mem_singleton.mp ht with h
        rw [h]
    · simp [fillLevel, if_neg hg] at ht

/-- Every maker recorded by the inner level loop was resting in the queue. -/
theorem fillLevel_maker_mem (agg : Order) (q : List Order)
    (orders : List (ℕ × Order)) :
    ∀ t ∈ (fillLevel agg q orders).2.2.2, t.2.1 ∈ q := by
  induction q generalizing agg orders with
  | nil => intro t ht; simp [fillLevel] at ht
  | cons m rest ih =>
    intro t ht
    by_cases hg : 0 < agg.remaining
    · simp only [fillLevel, if_pos hg] at ht
      by_cases hm : (updateStatus
          { m with filled := m.filled + min agg.remaining m.remaining }).status
          = OStatus.filled
      · rw [if_pos hm] at ht
        rcases List.mem_cons.mp ht with h | h
        · rw [h]; exact List.mem_cons_self m rest
        · exact List.mem_cons_of_mem m (ih _ _ t h)
      · rw [if_neg hm] at ht
        rw [List.mem_singleton.mp ht]
        exact List.mem_cons_self m rest
    · simp [fillLevel, if_neg hg] at ht

/-- FIFO within one price level: the makers traded by the inner loop are a
take-prefix of the queue, in queue order. -/
theorem fillLevel_fifo (agg : Order) (q : List Order)
    (orders : List (ℕ × Order)) :
    ∃ k, ((fillLevel agg q orders).2.2.2).map (fun t => t.2.1.order_id)
      = (q.map Order.order_id).take k := by
  induction q generalizing agg orders with
  | nil => exact ⟨0, by simp [fillLevel]⟩
  | cons m rest ih =>
    by_cases hg : 0 < agg.remaining
    · by_cases hm : (updateStatus
          { m with filled := m.filled + min agg.remaining m.remaining }).status
          = OStatus.filled
      · obtain ⟨k, hk⟩ := ih (updateStatus
          { agg with filled := agg.filled + min agg.remaining m.remaining })
          (alDel orders m.order_id)
        refine ⟨k + 1, ?_⟩
        simp only [fillLevel, if_pos hg, if_pos hm, List.map_cons,
          List.take_succ_cons]
        rw [hk]
      · refine ⟨1, ?_⟩
        simp [fillLevel, if_pos hg, if_neg hm]
    · exact ⟨0, by simp [fillLevel, if_neg hg]⟩

/-- The residual queue left by the inner loop is a drop-suffix of the input
queue at the level of order ids (a partially filled head keeps its id). -/
theorem fillLevel_queue_suffix (agg : Order) (q : List Order)
    (orders : List (ℕ × Order)) :
    ∃ k, ((fillLevel agg q orders).2.1).map Order.order_id
      = (q.map Order.order_id).drop k := by
  induction q generalizing agg orders with
  | nil => exact ⟨0, by simp [fillLevel]⟩
  | cons m rest ih =>
    by_cases hg : 0 < agg.remaining
    · by_cases hm : (updateStatus
          { m with filled := m.filled + min agg.remaining m.remaining }).status
          = OStatus.filled
      · obtain ⟨k, hk⟩ := ih (updateStatus
          { agg with filled := agg.filled + min agg.remaining m.remaining })
          (alDel orders m.order_id)
        refine ⟨k + 1, ?_⟩
        simp only [fillLevel, if_pos hg, if_pos hm, List.map_cons,
          List.drop_succ_cons]
        exact hk
      · refine ⟨0, ?_⟩
        simp [fillLevel, if_pos hg, if_neg hm, updateStatus_id]
    · exact ⟨0, by simp [fillLevel, if_neg hg]⟩

/-- Deleting one key of an association list does not invent entries. -/
theorem alGet_of_alDel {α β : Type} [DecidableEq α] (m : List (α × β)) (k p : α)
    (v : β) (h : alGet (alDel m k) p = some v) : alGet m p = some v := by
  by_cases hp : p = k
  · rw [hp, alGet_alDel_self] at h
    exact absurd h (by simp)
  · rwa [alGet_alDel_ne m k p (fun he => hp he.symm)] at h

/-- Lift of `fillLevel_qty` through the ask-side ladder loop. -/
theorem matchBuyGo_qty (prices : List ℚ) (o : Order)
    (asks : List (ℚ × List Order)) (orders : List (ℕ × Order)) :
    ∀ t ∈ (matchBuyGo o asks orders prices).2.2.2.2,
      t.2.2 = min t.1.remaining t.2.1.remaining := by
  induction prices generalizing o asks orders with
  | nil => intro t ht; simp [matchBuyGo] at ht
  | cons best rest ih =>
    intro t ht
    by_cases hguard : 0 < o.remaining ∧ ¬ o.price < best
    · simp only [matchBuyGo, if_pos hguard] at ht
      by_cases hempty :
          (fillLevel o ((alGet asks best).getD []) orders).2.1 = []
      · rw [if_pos hempty] at ht
        rcases List.mem_append.mp ht with h | h
        · exact fillLevel_qty _ _ _ t h
        · exact ih _ _ _ t h
      · rw [if_neg hempty] at ht
        exact fillLevel_qty _ _ _ t ht
    · simp only [matchBuyGo] at ht
      rw [if_neg hguard] at ht
      simp at ht

/-- Lift of `fillLevel_qty` through the bid-side ladder loop (trade tuples are
`(maker, aggressor, qty)` there). -/
theorem matchSellGo_qty (prices : List ℚ) (o : Order)
    (bids : List (ℚ × List Order)) (orders : List (ℕ × Order)) :
    ∀ t ∈ (matchSellGo o bids orders prices).2.2.2.2,
      t.2.2 = min t.2.1.remaining t.1.remaining := by
  induction prices generalizing o bids orders with
  | nil => intro t ht; simp [matchSellGo] at ht
  | cons best rest ih =>
    intro t ht
    by_cases hguard : 0 < o.remaining ∧ ¬ o.price > best
    · simp only [matchSellGo, if_pos hguard] at ht
      by_cases hempty :
          (fillLevel o ((alGet bids best).getD []) orders).2.1 = []
      · rw [if_pos hempty] at ht
        rcases List.mem_append.mp ht with h | h
        · obtain ⟨t', ht', hmap⟩ := List.mem_map.mp h
          have := fillLevel_qty _ _ _ t' ht'
          rw [← hmap]
          simpa using this
        · exact ih _ _ _ t h
      · rw [if_neg hempty] at ht
        obtain ⟨t', ht', hmap⟩ := List.mem_map.mp ht
        have := fillLevel_qty _ _ _ t' ht'
        rw [← hmap]
        simpa using this
    · simp only [matchSellGo] at ht
      rw [if_neg hguard] at ht
      simp at ht

/-- Every maker of a buy aggressor's trades was resting at some level of the
ask book it matched against. -/
theorem matchBuyGo_maker_mem (prices : List ℚ) (o : Order)
    (asks : List (ℚ × List Order)) (orders : List (ℕ × Order)) :
    ∀ t ∈ (matchBuyGo o asks orders prices).2.2.2.2,
      ∃ p q, alGet asks p = some q ∧ t.2.1 ∈ q := by
  induction prices generalizing o asks orders with
  | nil => intro t ht; simp [matchBuyGo] at ht
  | cons best rest ih =>
    intro t ht
    by_cases hguard : 0 < o.remaining ∧ ¬ o.price < best
    · simp only [matchBuyGo, if_pos hguard] at ht
      by_cases hempty :
          (fillLevel o ((alGet asks best).getD []) orders).2.1 = []
      · rw [if_pos hempty] at ht
        rcases List.mem_append.mp ht with h | h
        · cases hq : alGet asks best with
          | none => rw [hq] at h; simp [fillLevel] at h
          | some q0 =>
            rw [hq] at h
            exact ⟨best, q0, hq, fillLevel_maker_mem _ _ _ t h⟩
        · obtain ⟨p, q, hpq, hmem⟩ := ih _ _ _ t h
          exact ⟨p, q, alGet_of_alDel _ _ _ _ hpq, hmem⟩
      · rw [if_neg hempty] at ht
        cases hq : alGet asks best with
        | none => rw [hq] at ht; simp [fillLevel] at ht
        | some q0 =>
          rw [hq] at ht
          exact ⟨best, q0, hq, fillLevel_maker_mem _ _ _ t ht⟩
    · simp only [matchBuyGo] at ht
      rw [if_neg hguard] at ht
      simp at ht

/-- Every maker of a sell aggressor's trades was resting at some level of the
bid book it matched against. -/
theorem matchSellGo_maker_mem (prices : List ℚ) (o : Order)
    (bids : List (ℚ × List Order)) (orders : List (ℕ × Order)) :
    ∀ t ∈ (matchSellGo o bids orders prices).2.2.2.2,
      ∃ p q, alGet bids p = some q ∧ t.1 ∈ q := by
  induction prices generalizing o bids orders with
  | nil => intro t ht; simp [matchSellGo] at ht
  | cons best rest ih =>
    intro t ht
    by_cases hguard : 0 < o.remaining ∧ ¬ o.price > best
    · simp only [matchSellGo, if_pos hguard] at ht
      by_cases hempty :
          (fillLevel o ((alGet bids best).getD []) orders).2.1 = []
      · rw [if_pos hempty] at ht
        rcases List.mem_append.mp ht with h | h
        · obtain ⟨t', ht', hmap⟩ := List.mem_map.mp h
          cases hq : alGet bids best with
          | none => rw [hq] at ht'; simp [fillLevel] at ht'
          | some q0 =>
            rw [hq] at ht'
            refine ⟨best, q0, hq, ?_⟩
            rw [← hmap]
            exact fillLevel_maker_mem _ _ _ t' ht'
        · obtain ⟨p, q, hpq, hmem⟩ := ih _ _ _ t h
          exact ⟨p, q, alGet_of_alDel _ _ _ _ hpq, hmem⟩
      · rw [if_neg hempty] at ht
        obtain ⟨t', ht', hmap⟩ := List.mem_map.mp ht
        cases hq : alGet bids best with
        | none => rw [hq] at ht'; simp [fillLevel] at ht'
        | some q0 =>
          rw [hq] at ht'
          refine ⟨best, q0, hq, ?_⟩
          rw [← hmap]
          exact fillLevel_maker_mem _ _ _ t' ht'
    · simp only [matchSellGo] at ht
      rw [if_neg hguard] at ht
      simp at ht

/-- Price-time priority for a crossing sell, per price level: the makers it
trades at price `p` are exactly a take-prefix of `p`'s FIFO queue. -/
theorem matchSellGo_fifo (prices : List ℚ) (o : Order)
    (bids : List (ℚ × List Order)) (orders : List (ℕ × Order))
    (hnd : prices.Nodup)
    (hpresent : ∀ p' ∈ prices, (alGet bids p').isSome)
    (hpriced : ∀ p' q', alGet bids p' = some q' → ∀ x ∈ q', x.price = p')
    (p : ℚ) (q : List Order) (hget : alGet bids p = some q) :
    ∃ k, (((matchSellGo o bids orders prices).2.2.2.2).filter
        (fun t => t.1.price = p)).map (fun t => t.1.order_id)
      = (q.map Order.order_id).take k := by
  induction prices generalizing o bids orders q with
  | nil => exact ⟨0, by simp [matchSellGo]⟩
  | cons best rest ih =>
    by_cases hguard : 0 < o.remaining ∧ ¬ o.price > best
    · obtain ⟨q0, hq0⟩ := Option.isSome_iff_exists.mp
        (hpresent best (List.mem_cons_self best rest))
      have hlevel : (alGet bids best).getD [] = q0 := by rw [hq0]; rfl
      -- all makers the level loop trades at this level sit in q0, priced best
      have hfmem : ∀ t ∈ (fillLevel o q0 orders).2.2.2.map
          (fun t => (t.2.1, t.1, t.2.2)), t.1 ∈ q0 ∧ t.1.price = best := by
        intro t ht
        obtain ⟨t', ht', hmap⟩ := List.mem_map.mp ht
        have hmem : t'.2.1 ∈ q0 := fillLevel_maker_mem _ _ _ t' ht'
        have : t.1 = t'.2.1 := by rw [← hmap]
        rw [this]
        exact ⟨hmem, hpriced best q0 hq0 _ hmem⟩
      have hfids : ((fillLevel o q0 orders).2.2.2.map
            (fun t => (t.2.1, t.1, t.2.2))).map (fun t => t.1.order_id)
          = ((fillLevel o q0 orders).2.2.2).map (fun t => t.2.1.order_id) := by
        rw [List.map_map]; rfl
      by_cases hempty : (fillLevel o ((alGet bids best).getD []) orders).2.1 = []
      · -- level drained: its trades, then recursion on the shrunk book
        have hrecmem : ∀ t ∈ (matchSellGo (fillLevel o ((alGet bids best).getD []) orders).1
              (alDel bids best)
              (fillLevel o ((alGet bids best).getD []) orders).2.2.1 rest).2.2.2.2,
            t.1.price ≠ best := by
          intro t ht hp'
          obtain ⟨p'', q'', hpq, hmem⟩ := matchSellGo_maker_mem _ _ _ _ t ht
          have : t.1.price = p'' :=
            hpriced p'' q'' (alGet_of_alDel _ _ _ _ hpq) _ hmem
          rw [hp'] at this
          rw [← this] at hpq
          rw [alGet_alDel_self] at hpq
          exact absurd hpq (by simp)
        by_cases hp : p = best
        · -- the requested level is the one being drained
          have hqq0 : q = q0 := by
            rw [hp] at hget; rw [hget] at hq0; exact Option.some_inj.mp hq0
          have hkeep : ((fillLevel o ((alGet bids best).getD []) orders).2.2.2.map
                (fun t => (t.2.1, t.1, t.2.2))).filter (fun t => t.1.price = p)
              = (fillLevel o ((alGet bids best).getD []) orders).2.2.2.map
                (fun t => (t.2.1, t.1, t.2.2)) := by
            refine List.filter_eq_self.mpr ?_
            intro t ht
            rw [hlevel] at ht
            simp only [decide_eq_true_eq]
            rw [hp]
            exact (hfmem t ht).2
          have hdrop : ((matchSellGo (fillLevel o ((alGet bids best).getD []) orders).1
                (alDel bids best)
                (fillLevel o ((alGet bids best).getD []) orders).2.2.1 rest).2.2.2.2).filter
                (fun t => t.1.price = p) = [] := by
            refine List.filter_eq_nil_iff.mpr ?_
            intro t ht
            simp only [decide_eq_true_eq]
            rw [hp]
            exact hrecmem t ht
          obtain ⟨k, hk⟩ := fillLevel_fifo o q0 orders
          refine ⟨k, ?_⟩
          simp only [matchSellGo, if_pos hguard, if_pos hempty,
            List.filter_append, List.map_append, hkeep, hdrop, List.map_nil,
            List.append_nil]
          rw [hlevel, hfids, hk, hqq0]
        · -- untouched level: nothing trades at p here, recurse
          have hbest_ne : best ≠ p := fun h => hp h.symm
          have hkeep : ((fillLevel o ((alGet bids best).getD []) orders).2.2.2.map
                (fun t => (t.2.1, t.1, t.2.2))).filter (fun t => t.1.price = p)
              = [] := by
            refine List.filter_eq_nil_iff.mpr ?_
            intro t ht
            rw [hlevel] at ht
            simp only [decide_eq_true_eq]
            rw [(hfmem t ht).2]
            exact hbest_ne
          obtain ⟨k, hk⟩ := ih (fillLevel o ((alGet bids best).getD []) orders).1
            (alDel bids best)
            (fillLevel o ((alGet bids best).getD []) orders).2.2.1
            ((List.nodup_cons.mp hnd).2)
            (by
              intro p' hp'
              have hne : p' ≠ best := by
                intro h
                exact (List.nodup_cons.mp hnd).1 (h ▸ hp')
              rw [alGet_alDel_ne bids best p' (fun h => hne h.symm)]
              exact hpresent p' (List.mem_cons_of_mem best hp'))
            (fun p' q' hpq x hx => hpriced p' q' (alGet_of_alDel _ _ _ _ hpq) x hx)
            q (by rwa [alGet_alDel_ne bids best p hbest_ne])
          refine ⟨k, ?_⟩
          simp only [matchSellGo, if_pos hguard, if_pos hempty,
            List.filter_append, List.map_append, hkeep, List.map_nil,
            List.nil_append]
          exact hk
      · -- level survives: only its own trades are emitted
        by_cases hp : p = best
        · have hqq0 : q = q0 := by
            rw [hp] at hget; rw [hget] at hq0; exact Option.some_inj.mp hq0
          have hkeep : ((fillLevel o ((alGet bids best).getD []) orders).2.2.2.map
                (fun t => (t.2.1, t.1, t.2.2))).filter (fun t => t.1.price = p)
              = (fillLevel o ((alGet bids best).getD []) orders).2.2.2.map
                (fun t => (t.2.1, t.1, t.2.2)) := by
            refine List.filter_eq_self.mpr ?_
            intro t ht
            rw [hlevel] at ht
            simp only [decide_eq_true_eq]
            rw [hp]
            exact (hfmem t ht).2
          obtain ⟨k, hk⟩ := fillLevel_fifo o q0 orders
          refine ⟨k, ?_⟩
          simp only [matchSellGo, if_pos hguard, if_neg hempty, hkeep]
          rw [hlevel, hfids, hk, hqq0]
        · have hbest_ne : best ≠ p := fun h => hp h.symm
          have hkeep : ((fillLevel o ((alGet bids best).getD []) orders).2.2.2.map
                (fun t => (t.2.1, t.1, t.2.2))).filter (fun t => t.1.price = p)
              = [] := by
            refine List.filter_eq_nil_iff.mpr ?_
            intro t ht
            rw [hlevel] at ht
            simp only [decide_eq_true_eq]
            rw [(hfmem t ht).2]
            exact hbest_ne
          refine ⟨0, ?_⟩
          simp only [matchSellGo, if_pos hguard, if_neg hempty, hkeep]
          simp
    · refine ⟨0, ?_⟩
      simp only [matchSellGo]
      rw [if_neg hguard]
      simp

/-- In a queue whose ids are distinct and whose `created_at` is
non-decreasing, membership of an order's id in a take-prefix is downward
closed along strictly earlier `created_at`. -/
theorem take_prefix_earlier_first (q : List Order) (k : ℕ)
    (hnd : (q.map Order.order_id).Nodup)
    (hsort : q.Pairwise (fun a c => a.created_at ≤ c.created_at))
    (o1 o2 : Order) (h1 : o1 ∈ q) (h2 : o2 ∈ q)
    (hlt : o1.created_at < o2.created_at)
    (hin : o2.order_id ∈ (q.map Order.order_id).take k) :
    o1.order_id ∈ (q.map Order.order_id).take k := by
  induction q generalizing k with
  | nil => exact absurd h1 (List.not_mem_nil o1)
  | cons m rest ih =>
    cases k with
    | zero => simp at hin
    | succ k' =>
      simp only [List.map_cons, List.take_succ_cons] at hin ⊢
      by_cases ho1 : o1 = m
      · rw [ho1]
        exact List.mem_cons_self _ _
      · have h1' : o1 ∈ rest := (List.mem_cons.mp h1).resolve_left ho1
        by_cases ho2 : o2 = m
        · exfalso
          have := (List.pairwise_cons.mp hsort).1 o1 h1'
          rw [ho2] at hlt
          exact absurd this (not_le.mpr hlt)
        · have h2' : o2 ∈ rest := (List.mem_cons.mp h2).resolve_left ho2
          rcases List.mem_cons.mp hin with hh | hh
          · exfalso
            exact ho2 (List.inj_on_of_nodup_map hnd
              (List.mem_cons_of_mem m h2') (List.mem_cons_self m rest) hh)
          · exact List.mem_cons_of_mem _
              (ih k' (List.nodup_cons.mp hnd).2 (List.pairwise_cons.mp hsort).2
                h1' h2' hh)

/-- `add_order` passes the matching loop's trades through unchanged. -/
theorem addOrder_trades (b : Book) (o : Order) :
    (addOrder b o).2.2
      = (if o.side = Side.buy then matchBuy o b else matchSell o b).2.2 := by
  simp only [addOrder]
  split <;> (split <;> rfl)

/-- C4: in every match produced by `place_order`, the trade quantity is
`min(aggressor remaining, maker remaining)` at match time; the trade price in
every emitted trade response is the limit price of an order resting in the
opposite book; and resting orders at one price level are consumed FIFO — of
two resting buys at the same price `p`, the one with strictly earlier
`created_at` is among the makers of a crossing sell whenever the later one
is. -/
theorem matching_price_time_priority (b : Book) (oc : OrderCreate)
    (fid now : ℕ) :
    (∀ t ∈ (addOrder b (mkOrder oc fid now)).2.2,
      t.2.2 = min t.1.remaining t.2.1.remaining) ∧
    (oc.side = Side.buy →
      ∀ tr ∈ (placeOrder b oc fid now).2.2,
        ∃ maker p q, alGet b.asks p = some q ∧ maker ∈ q ∧
          tr.price = maker.price) ∧
    (oc.side = Side.sell →
      ∀ tr ∈ (placeOrder b oc fid now).2.2,
        ∃ maker p q, alGet b.bids p = some q ∧ maker ∈ q ∧
          tr.price = maker.price) ∧
    (oc.side = Side.sell →
      ∀ p q, alGet b.bids p = some q →
        b.bid_prices.Nodup →
        (∀ p' ∈ b.bid_prices, (alGet b.bids p').isSome) →
        (∀ p' q', alGet b.bids p' = some q' → ∀ x ∈ q', x.price = p') →
        (q.map Order.order_id).Nodup →
        q.Pairwise (fun a c => a.created_at ≤ c.created_at) →
        ∀ o1 o2, o1 ∈ q → o2 ∈ q → o1.created_at < o2.created_at →
          o2.order_id ∈ (((addOrder b (mkOrder oc fid now)).2.2).filter
            (fun t => t.1.price = p)).map (fun t => t.1.order_id) →
          o1.order_id ∈ (((addOrder b (mkOrder oc fid now)).2.2).filter
            (fun t => t.1.price = p)).map (fun t => t.1.order_id)) := by
  refine ⟨?_, ?_, ?_, ?_⟩
  · intro t ht
    rw [addOrder_trades] at ht
    by_cases hside : (mkOrder oc fid now).side = Side.buy
    · rw [if_pos hside] at ht
      exact matchBuyGo_qty _ _ _ _ t ht
    · rw [if_neg hside] at ht
      rw [min_comm]
      exact matchSellGo_qty _ _ _ _ t ht
  · intro hside tr htr
    obtain ⟨t, ht, hmap⟩ := List.mem_map.mp htr
    have hts : (addOrder b (mkOrder oc fid now)).2.2
        = (matchBuyGo (mkOrder oc fid now) b.asks b.orders b.ask_prices).2.2.2.2 := by
      rw [addOrder_trades, if_pos (by simp [mkOrder, hside])]
      rfl
    rw [hts] at ht
    obtain ⟨p, q, hpq, hmem⟩ := matchBuyGo_maker_mem _ _ _ _ t ht
    refine ⟨t.2.1, p, q, hpq, hmem, ?_⟩
    rw [← hmap]
    simp [mkOrder, hside]
  · intro hside tr htr
    obtain ⟨t, ht, hmap⟩ := List.mem_map.mp htr
    have hts : (addOrder b (mkOrder oc fid now)).2.2
        = (matchSellGo (mkOrder oc fid now) b.bids b.orders b.bid_prices).2.2.2.2 := by
      rw [addOrder_trades, if_neg (by simp [mkOrder, hside])]
      rfl
    rw [hts] at ht
    obtain ⟨p, q, hpq, hmem⟩ := matchSellGo_maker_mem _ _ _ _ t ht
    refine ⟨t.1, p, q, hpq, hmem, ?_⟩
    rw [← hmap]
    simp [mkOrder, hside]
  · intro hside p q hget hndp hpresent hpriced hndq hsort o1 o2 h1 h2 hlt hin
    have hts : (addOrder b (mkOrder oc fid now)).2.2
        = (matchSellGo (mkOrder oc fid now) b.bids b.orders b.bid_prices).2.2.2.2 := by
      rw [addOrder_trades, if_neg (by simp [mkOrder, hside])]
      rfl
    rw [hts] at hin ⊢
    obtain ⟨k, hk⟩ := matchSellGo_fifo b.bid_prices (mkOrder oc fid now)
      b.bids b.orders hndp hpresent hpriced p q hget
    rw [hk] at hin ⊢
    exact take_prefix_earlier_first q k hndq hsort o1 o2 h1 h2 hlt hin

/-- Concrete book for the C4 witness: two resting buys `oA` (created 0) and
`oC` (created 2) queued FIFO at price 100. -/
def oA : Order := ⟨1, .buy, 100, 10, 0, 11, 0, .opn⟩
def oC : Order := ⟨3, .buy, 100, 10, 0, 13, 2, .opn⟩
def bW : Book := ⟨[(100, [oA, oC])], [], [100], [], [(1, oA), (3, oC)]⟩
def ocS : OrderCreate := ⟨"ELON", .sell, .limit, some 99, 12, 9⟩

theorem ostatus_part_ne_filled : (OStatus.part = OStatus.filled) = False :=
  eq_false (by decide)

theorem ostatus_opn_ne_filled : (OStatus.opn = OStatus.filled) = False :=
  eq_false (by decide)

theorem matching_price_time_priority_witness :
    (1 : ℕ) ∈ (((addOrder bW (mkOrder ocS 7 5)).2.2).filter
      (fun t => t.1.price = (100 : ℚ))).map (fun t => t.1.order_id) := by
  have hmem2 : (3 : ℕ) ∈ (((addOrder bW (mkOrder ocS 7 5)).2.2).filter
      (fun t => t.1.price = (100 : ℚ))).map (fun t => t.1.order_id) := by
    rw [addOrder_trades, if_neg (by simp [mkOrder, ocS])]
    show (3 : ℕ) ∈ ((matchSellGo (mkOrder ocS 7 5) bW.bids bW.orders
      bW.bid_prices).2.2.2.2.filter
        (fun t => t.1.price = (100 : ℚ))).map (fun t => t.1.order_id)
    norm_num [matchSellGo, fillLevel, updateStatus, mkOrder, ocS, bW, oA, oC,
      alGet, alSet, alDel, Order.remaining, ostatus_part_ne_filled,
      ostatus_opn_ne_filled]
  refine (matching_price_time_priority bW ocS 7 5).2.2.2 rfl 100 [oA, oC]
    rfl (by decide) ?_ ?_ (by decide) ?_ oA oC
    (by simp) (by simp) (by decide) hmem2
  · intro p' hp'
    have : p' = (100 : ℚ) := by
      rcases List.mem_singleton.mp hp' with h
      exact h
    rw [this]
    rfl
  · intro p' q' h x hx
    by_cases h100 : (100 : ℚ) = p'
    · simp only [bW, alGet, if_pos h100] at h
      have hq' : q' = [oA, oC] := (Option.some_inj.mp h).symm
      rw [hq'] at hx
      rcases List.mem_cons.mp hx with hh | hh
      · rw [hh, ← h100]; rfl
      · rcases List.mem_singleton.mp hh with hh2
        rw [hh2, ← h100]; rfl
    · simp only [bW, alGet, if_neg h100] at h
      exact absurd h (by simp)
  · exact List.Pairwise.cons (by intro x hx; fin_cases hx; decide)
      (List.pairwise_singleton _ _)

/-! ## Claim C10 — order-book structural invariants

Auxiliary association-list and flattening lemmas. -/

theorem alDel_sublist {α β : Type} [DecidableEq α] (m : List (α × β)) (k : α) :
    (alDel m k).Sublist m := by
  induction m with
  | nil => simp [alDel]
  | cons e rest ih =>
    by_cases he : e.1 = k
    · simp only [alDel, if_pos he]
      exact ih.cons e
    · simp only [alDel, if_neg he]
      exact ih.cons₂ e

theorem alKeys_alSet {α β : Type} [DecidableEq α] (m : List (α × β)) (k : α)
    (v : β) : alKeys (alSet m k v) = alKeys m := by
  induction m with
  | nil => rfl
  | cons e rest ih =>
    by_cases he : e.1 = k
    · simp [alSet, alKeys, he, ih] at *
      simpa [alKeys] using ih
    · simp only [alSet, if_neg he, alKeys, List.map_cons] at *
      rw [ih]

theorem alGet_isSome_alSet {α β : Type} [DecidableEq α] (m : List (α × β))
    (k p : α) (v : β) :
    (alGet (alSet m k v) p).isSome = (alGet m p).isSome := by
  induction m with
  | nil => simp [alGet, alSet]
  | cons e rest ih =>
    by_cases he : e.1 = k
    · by_cases hp : p = k
      · subst hp
        simp [alGet, alSet, he]
      · have hkp : ¬ k = p := fun h => hp h.symm
        have hep : ¬ e.1 = p := fun h => hkp (he.symm.trans h)
        simp [alGet, alSet, he, hkp, hep, ih]
    · by_cases hp : e.1 = p
      · have hpk : ¬ p = k := fun h => he (hp.trans h)
        simp [alGet, alSet, he, hp, hpk]
      · simp [alGet, alSet, he, hp, ih]

theorem alGet_none_iff {α β : Type} [DecidableEq α] (m : List (α × β)) (k : α) :
    alGet m k = none ↔ k ∉ alKeys m := by
  induction m with
  | nil => simp [alGet, alKeys]
  | cons e rest ih =>
    by_cases he : e.1 = k
    · constructor
      · intro h
        rw [show alGet (e :: rest) k = some e.2 from by simp [alGet, he]] at h
        exact absurd h (by simp)
      · intro h
        exact absurd (by simp [alKeys, he] : k ∈ alKeys (e :: rest)) h
    · have hke : ¬ k = e.1 := fun h => he h.symm
      rw [show alGet (e :: rest) k = alGet rest k from by simp [alGet, he]]
      rw [ih]
      simp [alKeys, hke]

theorem alDel_of_not_mem {α β : Type} [DecidableEq α] (m : List (α × β))
    (k : α) (h : k ∉ alKeys m) : alDel m k = m := by
  induction m with
  | nil => rfl
  | cons e rest ih =>
    simp only [alKeys, List.map_cons, List.mem_cons, not_or] at h
    have hek : ¬ e.1 = k := fun hh => h.1 hh.symm
    simp only [alDel, if_neg hek]
    rw [ih (by simpa [alKeys] using h.2)]

theorem alSet_of_not_mem {α β : Type} [DecidableEq α] (m : List (α × β))
    (k : α) (v : β) (h : k ∉ alKeys m) : alSet m k v = m := by
  induction m with
  | nil => rfl
  | cons e rest ih =>
    simp only [alKeys, List.map_cons, List.mem_cons, not_or] at h
    have hek : ¬ e.1 = k := fun hh => h.1 hh.symm
    simp only [alSet, if_neg hek]
    rw [ih (by simpa [alKeys] using h.2)]

/-- All orders resting at any level of a price-keyed map. -/
def joinLevels (m : List (ℚ × List Order)) : List Order :=
  (m.map Prod.snd).flatten

theorem mem_joinLevels {m : List (ℚ × List Order)} {x : Order} :
    x ∈ joinLevels m ↔ ∃ e ∈ m, x ∈ e.2 := by
  simp only [joinLevels, List.mem_flatten, List.mem_map]
  constructor
  · rintro ⟨l, ⟨e, he, rfl⟩, hx⟩
    exact ⟨e, he, hx⟩
  · rintro ⟨e, he, hx⟩
    exact ⟨e.2, ⟨e, he, rfl⟩, hx⟩

/-- Pulling a present level out of the flattening, up to permutation. -/
theorem joinLevels_perm_del (m : List (ℚ × List Order)) (k : ℚ)
    (q : List Order) (hk : (alKeys m).Nodup) (h : alGet m k = some q) :
    (joinLevels m).Perm (q ++ joinLevels (alDel m k)) := by
  induction m with
  | nil => simp [alGet] at h
  | cons e rest ih =>
    by_cases he : e.1 = k
    · simp only [alGet, if_pos he] at h
      have hq : e.2 = q := Option.some_inj.mp h
      have hknotin : k ∉ alKeys rest := by
        simp only [alKeys, List.map_cons, List.nodup_cons] at hk
        exact he ▸ hk.1
      simp only [alDel, if_pos he, alDel_of_not_mem rest k hknotin]
      rw [joinLevels, List.map_cons, List.flatten_cons, hq]
      rfl
    · simp only [alGet, if_neg he] at h
      have hk' : (alKeys rest).Nodup := by
        simp only [alKeys, List.map_cons, List.nodup_cons] at hk
        exact hk.2
      have hperm : (joinLevels rest).Perm (q ++ joinLevels (alDel rest k)) :=
        ih hk' h
      simp only [alDel, if_neg he]
      rw [joinLevels, List.map_cons, List.flatten_cons, joinLevels,
        List.map_cons, List.flatten_cons]
      have h1 : (e.2 ++ ((rest.map Prod.snd).flatten : List Order)).Perm
          (e.2 ++ (q ++ joinLevels (alDel rest k))) := hperm.append_left e.2
      have h2 : (e.2 ++ (q ++ joinLevels (alDel rest k))).Perm
          (q ++ (e.2 ++ ((alDel rest k).map Prod.snd).flatten)) := by
        rw [← List.append_assoc, ← List.append_assoc]
        exact (List.perm_append_comm).append_right _
      exact h1.trans h2

/-- Overwriting a present level, up to permutation. -/
theorem joinLevels_perm_set (m : List (ℚ × List Order)) (k : ℚ)
    (q q' : List Order) (hk : (alKeys m).Nodup) (h : alGet m k = some q) :
    (joinLevels (alSet m k q')).Perm (q' ++ joinLevels (alDel m k)) := by
  induction m with
  | nil => simp [alGet] at h
  | cons e rest ih =>
    by_cases he : e.1 = k
    · have hknotin : k ∉ alKeys rest := by
        simp only [alKeys, List.map_cons, List.nodup_cons] at hk
        exact he ▸ hk.1
      simp only [alSet, if_pos he, alDel, if_pos he,
        alDel_of_not_mem rest k hknotin]
      rw [alSet_of_not_mem rest k q' hknotin]
      rfl
    · simp only [alGet, if_neg he] at h
      have hk' : (alKeys rest).Nodup := by
        simp only [alKeys, List.map_cons, List.nodup_cons] at hk
        exact hk.2
      have hperm : (joinLevels (alSet rest k q')).Perm
          (q' ++ joinLevels (alDel rest k)) := ih hk' h
      simp only [alSet, if_neg he, alDel, if_neg he]
      rw [joinLevels, List.map_cons, List.flatten_cons]
      have h1 : (e.2 ++ (((alSet rest k q').map Prod.snd).flatten : List Order)).Perm
          (e.2 ++ (q' ++ joinLevels (alDel rest k))) := hperm.append_left e.2
      have h2 : (e.2 ++ (q' ++ joinLevels (alDel rest k))).Perm
          (q' ++ (e.2 ++ ((alDel rest k).map Prod.snd).flatten)) := by
        rw [← List.append_assoc, ← List.append_assoc]
        exact (List.perm_append_comm).append_right _
      exact h1.trans h2

/-- The inner loop never changes the aggressor's identity fields. -/
theorem fillLevel_agg_fields (agg : Order) (q : List Order)
    (orders : List (ℕ × Order)) :
    (fillLevel agg q orders).1.order_id = agg.order_id ∧
    (fillLevel agg q orders).1.price = agg.price ∧
    (fillLevel agg q orders).1.side = agg.side := by
  induction q generalizing agg orders with
  | nil => exact ⟨rfl, rfl, rfl⟩
  | cons m rest ih =>
    by_cases hg : 0 < agg.remaining
    · by_cases hm : (updateStatus
          { m with filled := m.filled + min agg.remaining m.remaining }).status
          = OStatus.filled
      · have := ih (updateStatus
          { agg with filled := agg.filled + min agg.remaining m.remaining })
          (alDel orders m.order_id)
        simp only [fillLevel, if_pos hg, if_pos hm]
        simpa [updateStatus_id, updateStatus_price, updateStatus_side] using this
      · simp only [fillLevel, if_pos hg, if_neg hm]
        exact ⟨updateStatus_id _, updateStatus_price _, updateStatus_side _⟩
    · simp [fillLevel, if_neg hg]

/-- Orders left on a level keep the price and side of orders that were
queued there. -/
theorem fillLevel_queue_fields (agg : Order) (q : List Order)
    (orders : List (ℕ × Order)) :
    ∀ x ∈ (fillLevel agg q orders).2.1,
      ∃ y ∈ q, x.price = y.price ∧ x.side = y.side := by
  induction q generalizing agg orders with
  | nil => intro x hx; simp [fillLevel] at hx
  | cons m rest ih =>
    intro x hx
    by_cases hg : 0 < agg.remaining
    · by_cases hm : (updateStatus
          { m with filled := m.filled + min agg.remaining m.remaining }).status
          = OStatus.filled
      · simp only [fillLevel, if_pos hg, if_pos hm] at hx
        obtain ⟨y, hy, hfields⟩ := ih _ _ x hx
        exact ⟨y, List.mem_cons_of_mem m hy, hfields⟩
      · simp only [fillLevel, if_pos hg, if_neg hm] at hx
        rcases List.mem_cons.mp hx with h | h
        · exact ⟨m, List.mem_cons_self m rest,
            by rw [h]; exact ⟨updateStatus_price _, updateStatus_side _⟩⟩
        · exact ⟨x, List.mem_cons_of_mem m h, rfl, rfl⟩
    · simp only [fillLevel, if_neg hg] at hx
      exact ⟨x, hx, rfl, rfl⟩

/-- Splitting a Nodup list around a middle element. -/
theorem nodup_middle_parts {γ : Type} (xs ys : List γ) (y : γ)
    (h : (xs ++ y :: ys).Nodup) : (xs ++ ys).Nodup ∧ y ∉ xs ++ ys := by
  have h' : (y :: (xs ++ ys)).Nodup := List.nodup_middle.mp h
  exact ⟨(List.nodup_cons.mp h').2, (List.nodup_cons.mp h').1⟩

/-- The aliased `orders` dict stays synchronized with the queue through the
inner level loop: fully filled makers are deleted, a partially filled maker's
entry shows its new fill, everything else is untouched.  `R` stands for the
orders resting anywhere else in the book. -/
theorem fillLevel_sync (agg : Order) (q : List Order)
    (orders : List (ℕ × Order)) (R : List Order)
    (hnd : ((R ++ q).map Order.order_id).Nodup)
    (hA : ∀ n x, alGet orders n = some x → x.order_id = n ∧ x ∈ R ++ q)
    (hB : ∀ x, x ∈ R ++ q → alGet orders x.order_id = some x) :
    (((R ++ (fillLevel agg q orders).2.1).map Order.order_id).Nodup) ∧
    (∀ n x, alGet (fillLevel agg q orders).2.2.1 n = some x →
      x.order_id = n ∧ x ∈ R ++ (fillLevel agg q orders).2.1) ∧
    (∀ x, x ∈ R ++ (fillLevel agg q orders).2.1 →
      alGet (fillLevel agg q orders).2.2.1 x.order_id = some x) ∧
    (∀ n, (alGet (fillLevel agg q orders).2.2.1 n).isSome →
      (alGet orders n).isSome) := by
  induction q generalizing agg orders with
  | nil =>
    simp only [fillLevel]
    exact ⟨hnd, hA, hB, fun n h => h⟩
  | cons m rest ih =>
    have hmid : ((R ++ rest).map Order.order_id).Nodup ∧
        m.order_id ∉ (R ++ rest).map Order.order_id := by
      have h1 : (R.map Order.order_id ++ m.order_id :: rest.map Order.order_id).Nodup := by
        simpa [List.map_append] using hnd
      have := nodup_middle_parts (R.map Order.order_id)
        (rest.map Order.order_id) m.order_id h1
      simpa [List.map_append] using this
    by_cases hg : 0 < agg.remaining
    · by_cases hm : (updateStatus
          { m with filled := m.filled + min agg.remaining m.remaining }).status
          = OStatus.filled
      · -- maker fully filled: dequeued and deleted from the dict
        have hA' : ∀ n x, alGet (alDel orders m.order_id) n = some x →
            x.order_id = n ∧ x ∈ R ++ rest := by
          intro n x hx
          have hne : n ≠ m.order_id := by
            intro h
            rw [h, alGet_alDel_self] at hx
            exact absurd hx (by simp)
          have hx' := hA n x (alGet_of_alDel _ _ _ _ hx)
          refine ⟨hx'.1, ?_⟩
          rcases List.mem_append.mp hx'.2 with h | h
          · exact List.mem_append_left _ h
          · rcases List.mem_cons.mp h with h2 | h2
            · exact absurd (by rw [← hx'.1, h2] : n = m.order_id) hne
            · exact List.mem_append_right _ h2
        have hB' : ∀ x, x ∈ R ++ rest → alGet (alDel orders m.order_id) x.order_id = some x := by
          intro x hx
          have hxne : x.order_id ≠ m.order_id := by
            intro h
            exact hmid.2 (h ▸ List.mem_map_of_mem Order.order_id hx)
          rw [alGet_alDel_ne orders m.order_id x.order_id (fun h => hxne h.symm)]
          refine hB x ?_
          rcases List.mem_append.mp hx with h | h
          · exact List.mem_append_left _ h
          · exact List.mem_append_right _ (List.mem_cons_of_mem m h)
        obtain ⟨c1, c2, c3, c4⟩ := ih (updateStatus
          { agg with filled := agg.filled + min agg.remaining m.remaining })
          (alDel orders m.order_id) hmid.1 hA' hB'
        refine ⟨?_, ?_, ?_, ?_⟩ <;>
          simp only [fillLevel, if_pos hg, if_pos hm]
        · exact c1
        · exact c2
        · exact c3
        · intro n hsome
          have := c4 n hsome
          by_cases hn : n = m.order_id
          · rw [hn, alGet_alDel_self] at this
            exact absurd this (by simp)
          · rwa [alGet_alDel_ne orders m.order_id n (fun h => hn h.symm)] at this
      · -- maker partially filled: stays at the head, dict alias updated
        set m' := updateStatus
          { m with filled := m.filled + min agg.remaining m.remaining } with hm'
        have hm'id : m'.order_id = m.order_id := updateStatus_id _
        have hsome : (alGet orders m.order_id).isSome := by
          rw [hB m (List.mem_append_right _ (List.mem_cons_self m rest))]
          rfl
        have hidseq : (R ++ m' :: rest).map Order.order_id
            = (R ++ m :: rest).map Order.order_id := by
          simp [List.map_append, hm'id]
        refine ⟨?_, ?_, ?_, ?_⟩ <;>
          simp only [fillLevel, if_pos hg, if_neg hm]
        · rw [hidseq]; exact hnd
        · intro n x hx
          by_cases hn : n = m.order_id
          · rw [hn, alGet_alSet_self orders m.order_id m' hsome] at hx
            have hxm : x = m' := (Option.some_inj.mp hx).symm
            refine ⟨by rw [hxm, hm'id, hn], ?_⟩
            rw [hxm]
            exact List.mem_append_right _ (List.mem_cons_self m' rest)
          · rw [alGet_alSet_ne orders m.order_id n m' (fun h => hn h.symm)] at hx
            have hx' := hA n x hx
            refine ⟨hx'.1, ?_⟩
            rcases List.mem_append.mp hx'.2 with h | h
            · exact List.mem_append_left _ h
            · rcases List.mem_cons.mp h with h2 | h2
              · exact absurd (by rw [← hx'.1, h2] : n = m.order_id) hn
              · exact List.mem_append_right _ (List.mem_cons_of_mem m' h2)
        · intro x hx
          rcases List.mem_append.mp hx with h | h
          · have hxne : x.order_id ≠ m.order_id := by
              intro hh
              exact hmid.2 (hh ▸ List.mem_map_of_mem Order.order_id
                (List.mem_append_left rest h))
            rw [alGet_alSet_ne orders m.order_id x.order_id m' (fun hh => hxne hh.symm)]
            exact hB x (List.mem_append_left _ h)
          · rcases List.mem_cons.mp h with h2 | h2
            · rw [h2, hm'id]
              exact alGet_alSet_self orders m.order_id m' hsome
            · have hxne : x.order_id ≠ m.order_id := by
                intro hh
                exact hmid.2 (hh ▸ List.mem_map_of_mem Order.order_id
                  (List.mem_append_right R h2))
              rw [alGet_alSet_ne orders m.order_id x.order_id m' (fun hh => hxne hh.symm)]
              exact hB x (List.mem_append_right _ (List.mem_cons_of_mem m h2))
        · intro n hsome2
          rwa [alGet_isSome_alSet orders m.order_id n m'] at hsome2
    · simp only [fillLevel, if_neg hg]
      exact ⟨hnd, hA, hB, fun n h => h⟩

theorem perm_rotate (A C D : List Order) :
    (A ++ (C ++ D)).Perm ((A ++ D) ++ C) := by
  have h1 : (A ++ (C ++ D)).Perm (A ++ (D ++ C)) :=
    (List.perm_append_comm).append_left A
  have h2 : A ++ (D ++ C) = (A ++ D) ++ C := (List.append_assoc A D C).symm
  rw [h2] at h1
  exact h1

theorem alKeys_alDel_nodup {α β : Type} [DecidableEq α] (m : List (α × β))
    (k : α) (h : (alKeys m).Nodup) : (alKeys (alDel m k)).Nodup :=
  h.sublist ((alDel_sublist m k).map Prod.fst)

/-- Ladder-loop invariant preservation, ask side: matching a buy aggressor
down the sorted ask ladder keeps the price list sorted and synchronized with
the level map, levels non-empty and correctly priced, and the `orders` dict
in sync with the resting orders.  `B` is the (unchanged) bid side's resting
orders. -/
theorem matchBuyGo_WF (prices : List ℚ) (o : Order)
    (asks : List (ℚ × List Order)) (orders : List (ℕ × Order)) (B : List Order)
    (hsorted : prices.Sorted (· < ·))
    (hmemiff : ∀ p, p ∈ prices ↔ (alGet asks p).isSome)
    (hkeys : (alKeys asks).Nodup)
    (hne : ∀ p q, alGet asks p = some q → q ≠ [])
    (hlevel : ∀ p q, alGet asks p = some q → ∀ x ∈ q, x.price = p ∧ x.side = Side.sell)
    (hnd : ((B ++ joinLevels asks).map Order.order_id).Nodup)
    (hA : ∀ n x, alGet orders n = some x → x.order_id = n ∧ x ∈ B ++ joinLevels asks)
    (hB : ∀ x, x ∈ B ++ joinLevels asks → alGet orders x.order_id = some x) :
    ((matchBuyGo o asks orders prices).2.2.2.1).Sorted (· < ·) ∧
    (∀ p, p ∈ (matchBuyGo o asks orders prices).2.2.2.1 ↔
      (alGet (matchBuyGo o asks orders prices).2.1 p).isSome) ∧
    (alKeys (matchBuyGo o asks orders prices).2.1).Nodup ∧
    (∀ p q, alGet (matchBuyGo o asks orders prices).2.1 p = some q → q ≠ []) ∧
    (∀ p q, alGet (matchBuyGo o asks orders prices).2.1 p = some q →
      ∀ x ∈ q, x.price = p ∧ x.side = Side.sell) ∧
    (((B ++ joinLevels (matchBuyGo o asks orders prices).2.1).map Order.order_id).Nodup) ∧
    (∀ n x, alGet (matchBuyGo o asks orders prices).2.2.1 n = some x →
      x.order_id = n ∧ x ∈ B ++ joinLevels (matchBuyGo o asks orders prices).2.1) ∧
    (∀ x, x ∈ B ++ joinLevels (matchBuyGo o asks orders prices).2.1 →
      alGet (matchBuyGo o asks orders prices).2.2.1 x.order_id = some x) ∧
    (∀ n, (alGet (matchBuyGo o asks orders prices).2.2.1 n).isSome →
      (alGet orders n).isSome) := by
  induction prices generalizing o asks orders with
  | nil =>
    simp only [matchBuyGo]
    exact ⟨List.sorted_nil, by simp [hmemiff], hkeys, hne, hlevel, hnd, hA, hB,
      fun n h => h⟩
  | cons best rest ih =>
    by_cases hguard : 0 < o.remaining ∧ ¬ o.price < best
    · obtain ⟨q0, hq0⟩ := Option.isSome_iff_exists.mp
        ((hmemiff best).mp (List.mem_cons_self best rest))
      have hlevel0 : (alGet asks best).getD [] = q0 := by rw [hq0]; rfl
      have hbest_rest : ∀ p, p ∈ rest → p ≠ best := by
        intro p hp h
        have := (List.pairwise_cons.mp hsorted).1 p hp
        rw [h] at this
        exact lt_irrefl best this
      -- transfer the sync hypotheses into the local (R, q0) view
      have hperm : ((B ++ joinLevels asks).Perm
          ((B ++ joinLevels (alDel asks best)) ++ q0)) := by
        have h0 := joinLevels_perm_del asks best q0 hkeys hq0
        have h1 : (B ++ joinLevels asks).Perm
            (B ++ (q0 ++ joinLevels (alDel asks best))) := h0.append_left B
        exact h1.trans (perm_rotate B q0 (joinLevels (alDel asks best)))
      have hndR : (((B ++ joinLevels (alDel asks best)) ++ q0).map
          Order.order_id).Nodup :=
        (List.Perm.nodup_iff (hperm.map Order.order_id)).mp hnd
      have hAR : ∀ n x, alGet orders n = some x →
          x.order_id = n ∧ x ∈ (B ++ joinLevels (alDel asks best)) ++ q0 := by
        intro n x hx
        have := hA n x hx
        exact ⟨this.1, hperm.mem_iff.mp this.2⟩
      have hBR : ∀ x, x ∈ (B ++ joinLevels (alDel asks best)) ++ q0 →
          alGet orders x.order_id = some x := by
        intro x hx
        exact hB x (hperm.mem_iff.mpr hx)
      obtain ⟨c1, c2, c3, c4⟩ := fillLevel_sync o q0 orders
        (B ++ joinLevels (alDel asks best)) hndR hAR hBR
      by_cases hempty : (fillLevel o ((alGet asks best).getD []) orders).2.1 = []
      · -- level drained: recurse on the shrunk ladder
        have hempty0 : (fillLevel o q0 orders).2.1 = [] := by
          rw [← hlevel0]; exact hempty
        have hmemiff' : ∀ p, p ∈ rest ↔ (alGet (alDel asks best) p).isSome := by
          intro p
          constructor
          · intro hp
            rw [alGet_alDel_ne asks best p (fun h => hbest_rest p hp h.symm)]
            exact (hmemiff p).mp (List.mem_cons_of_mem best hp)
          · intro hp
            by_cases hpb : p = best
            · rw [hpb, alGet_alDel_self] at hp
              exact absurd hp (by simp)
            · rw [alGet_alDel_ne asks best p (fun h => hpb h.symm)] at hp
              have := (hmemiff p).mpr hp
              exact (List.mem_cons.mp this).resolve_left hpb
        have hnd' : ((B ++ joinLevels (alDel asks best)).map Order.order_id).Nodup := by
          have := c1
          rw [hempty0] at this
          simpa using this
        have hA' : ∀ n x, alGet (fillLevel o q0 orders).2.2.1 n = some x →
            x.order_id = n ∧ x ∈ B ++ joinLevels (alDel asks best) := by
          intro n x hx
          have := c2 n x hx
          rw [hempty0] at this
          simpa using this
        have hB' : ∀ x, x ∈ B ++ joinLevels (alDel asks best) →
            alGet (fillLevel o q0 orders).2.2.1 x.order_id = some x := by
          intro x hx
          refine c3 x ?_
          rw [hempty0]
          simpa using hx
        obtain ⟨d1, d2, d3, d4, d5, d6, d7, d8, d9⟩ := ih
          (fillLevel o q0 orders).1 (alDel asks best)
          (fillLevel o q0 orders).2.2.1
          ((List.pairwise_cons.mp hsorted).2)
          hmemiff' (alKeys_alDel_nodup asks best hkeys)
          (fun p q h => hne p q (alGet_of_alDel _ _ _ _ h))
          (fun p q h => hlevel p q (alGet_of_alDel _ _ _ _ h))
          hnd' hA' hB'
        have hrw : matchBuyGo o asks orders (best :: rest)
            = ((matchBuyGo (fillLevel o q0 orders).1 (alDel asks best)
                (fillLevel o q0 orders).2.2.1 rest).1,
               (matchBuyGo (fillLevel o q0 orders).1 (alDel asks best)
                (fillLevel o q0 orders).2.2.1 rest).2.1,
               (matchBuyGo (fillLevel o q0 orders).1 (alDel asks best)
                (fillLevel o q0 orders).2.2.1 rest).2.2.1,
               (matchBuyGo (fillLevel o q0 orders).1 (alDel asks best)
                (fillLevel o q0 orders).2.2.1 rest).2.2.2.1,
               (fillLevel o q0 orders).2.2.2 ++
                 (matchBuyGo (fillLevel o q0 orders).1 (alDel asks best)
                  (fillLevel o q0 orders).2.2.1 rest).2.2.2.2) := by
          simp only [matchBuyGo, if_pos hguard, hlevel0, if_pos hempty0]
        rw [hrw]
        refine ⟨d1, d2, d3, d4, d5, d6, d7, d8, ?_⟩
        intro n hsome
        exact c4 n (d9 n hsome)
      · -- level survives (aggressor exhausted): write the queue back
        have hempty0 : ¬ (fillLevel o q0 orders).2.1 = [] := by
          rw [← hlevel0]; exact hempty
        have hq' : alGet (alSet asks best (fillLevel o q0 orders).2.1) best
            = some (fillLevel o q0 orders).2.1 :=
          alGet_alSet_self asks best _ (by simp [hq0])
        have hpermset : ((B ++ joinLevels (alSet asks best
            (fillLevel o q0 orders).2.1)).Perm
            ((B ++ joinLevels (alDel asks best)) ++ (fillLevel o q0 orders).2.1)) := by
          have h0 := joinLevels_perm_set asks best q0
            (fillLevel o q0 orders).2.1 hkeys hq0
          have h1 := h0.append_left B
          exact h1.trans (perm_rotate B _ (joinLevels (alDel asks best)))
        have hrw : matchBuyGo o asks orders (best :: rest)
            = ((fillLevel o q0 orders).1,
               alSet asks best (fillLevel o q0 orders).2.1,
               (fillLevel o q0 orders).2.2.1, best :: rest,
               (fillLevel o q0 orders).2.2.2) := by
          simp only [matchBuyGo, if_pos hguard, hlevel0, if_neg hempty0]
        rw [hrw]
        refine ⟨hsorted, ?_, ?_, ?_, ?_, ?_, ?_, ?_, c4⟩
        · intro p
          have hbool : (alGet (alSet asks best (fillLevel o q0 orders).2.1) p).isSome
              = (alGet asks p).isSome := alGet_isSome_alSet asks best p _
          rw [hbool]
          exact hmemiff p
        · rw [alKeys_alSet]
          exact hkeys
        · intro p q h
          by_cases hpb : p = best
          · rw [hpb] at h
            rw [hq'] at h
            rw [← Option.some_inj.mp h]
            exact hempty0
          · rw [alGet_alSet_ne asks best p _ (fun hh => hpb hh.symm)] at h
            exact hne p q h
        · intro p q h x hx
          by_cases hpb : p = best
          · rw [hpb] at h ⊢
            rw [hq'] at h
            rw [← Option.some_inj.mp h] at hx
            obtain ⟨y, hy, hpr, hsd⟩ := fillLevel_queue_fields o q0 orders x hx
            have := hlevel best q0 hq0 y hy
            exact ⟨hpr.trans this.1, hsd.trans this.2⟩
          · rw [alGet_alSet_ne asks best p _ (fun hh => hpb hh.symm)] at h
            exact hlevel p q h x hx
        · exact (List.Perm.nodup_iff (hpermset.map Order.order_id)).mpr c1
        · intro n x hx
          have := c2 n x hx
          exact ⟨this.1, hpermset.mem_iff.mpr this.2⟩
        · intro x hx
          exact c3 x (hpermset.mem_iff.mp hx)
    · have hrw : matchBuyGo o asks orders (best :: rest)
          = (o, asks, orders, best :: rest, []) := by
        simp only [matchBuyGo, if_neg hguard]
      rw [hrw]
      exact ⟨hsorted, hmemiff, hkeys, hne, hlevel, hnd, hA, hB, fun n h => h⟩

/-- Ladder-loop invariant preservation, bid side: matching a sell aggressor
down the sorted bid ladder keeps the price list sorted and synchronized with
the level map, levels non-empty and correctly priced, and the `orders` dict
in sync with the resting orders.  `B` is the (unchanged) ask side's resting
orders. -/
theorem matchSellGo_WF (prices : List ℚ) (o : Order)
    (bids : List (ℚ × List Order)) (orders : List (ℕ × Order)) (B : List Order)
    (hsorted : prices.Sorted (· > ·))
    (hmemiff : ∀ p, p ∈ prices ↔ (alGet bids p).isSome)
    (hkeys : (alKeys bids).Nodup)
    (hne : ∀ p q, alGet bids p = some q → q ≠ [])
    (hlevel : ∀ p q, alGet bids p = some q → ∀ x ∈ q, x.price = p ∧ x.side = Side.buy)
    (hnd : ((B ++ joinLevels bids).map Order.order_id).Nodup)
    (hA : ∀ n x, alGet orders n = some x → x.order_id = n ∧ x ∈ B ++ joinLevels bids)
    (hB : ∀ x, x ∈ B ++ joinLevels bids → alGet orders x.order_id = some x) :
    ((matchSellGo o bids orders prices).2.2.2.1).Sorted (· > ·) ∧
    (∀ p, p ∈ (matchSellGo o bids orders prices).2.2.2.1 ↔
      (alGet (matchSellGo o bids orders prices).2.1 p).isSome) ∧
    (alKeys (matchSellGo o bids orders prices).2.1).Nodup ∧
    (∀ p q, alGet (matchSellGo o bids orders prices).2.1 p = some q → q ≠ []) ∧
    (∀ p q, alGet (matchSellGo o bids orders prices).2.1 p = some q →
      ∀ x ∈ q, x.price = p ∧ x.side = Side.buy) ∧
    (((B ++ joinLevels (matchSellGo o bids orders prices).2.1).map Order.order_id).Nodup) ∧
    (∀ n x, alGet (matchSellGo o bids orders prices).2.2.1 n = some x →
      x.order_id = n ∧ x ∈ B ++ joinLevels (matchSellGo o bids orders prices).2.1) ∧
    (∀ x, x ∈ B ++ joinLevels (matchSellGo o bids orders prices).2.1 →
      alGet (matchSellGo o bids orders prices).2.2.1 x.order_id = some x) ∧
    (∀ n, (alGet (matchSellGo o bids orders prices).2.2.1 n).isSome →
      (alGet orders n).isSome) := by
  induction prices generalizing o bids orders with
  | nil =>
    simp only [matchSellGo]
    exact ⟨List.sorted_nil, by simp [hmemiff], hkeys, hne, hlevel, hnd, hA, hB,
      fun n h => h⟩
  | cons best rest ih =>
    by_cases hguard : 0 < o.remaining ∧ ¬ o.price > best
    · obtain ⟨q0, hq0⟩ := Option.isSome_iff_exists.mp
        ((hmemiff best).mp (List.mem_cons_self best rest))
      have hlevel0 : (alGet bids best).getD [] = q0 := by rw [hq0]; rfl
      have hbest_rest : ∀ p, p ∈ rest → p ≠ best := by
        intro p hp h
        have := (List.pairwise_cons.mp hsorted).1 p hp
        rw [h] at this
        exact lt_irrefl best this
      -- transfer the sync hypotheses into the local (R, q0) view
      have hperm : ((B ++ joinLevels bids).Perm
          ((B ++ joinLevels (alDel bids best)) ++ q0)) := by
        have h0 := joinLevels_perm_del bids best q0 hkeys hq0
        have h1 : (B ++ joinLevels bids).Perm
            (B ++ (q0 ++ joinLevels (alDel bids best))) := h0.append_left B
        exact h1.trans (perm_rotate B q0 (joinLevels (alDel bids best)))
      have hndR : (((B ++ joinLevels (alDel bids best)) ++ q0).map
          Order.order_id).Nodup :=
        (List.Perm.nodup_iff (hperm.map Order.order_id)).mp hnd
      have hAR : ∀ n x, alGet orders n = some x →
          x.order_id = n ∧ x ∈ (B ++ joinLevels (alDel bids best)) ++ q0 := by
        intro n x hx
        have := hA n x hx
        exact ⟨this.1, hperm.mem_iff.mp this.2⟩
      have hBR : ∀ x, x ∈ (B ++ joinLevels (alDel bids best)) ++ q0 →
          alGet orders x.order_id = some x := by
        intro x hx
        exact hB x (hperm.mem_iff.mpr hx)
      obtain ⟨c1, c2, c3, c4⟩ := fillLevel_sync o q0 orders
        (B ++ joinLevels (alDel bids best)) hndR hAR hBR
      by_cases hempty : (fillLevel o ((alGet bids best).getD []) orders).2.1 = []
      · -- level drained: recurse on the shrunk ladder
        have hempty0 : (fillLevel o q0 orders).2.1 = [] := by
          rw [← hlevel0]; exact hempty
        have hmemiff' : ∀ p, p ∈ rest ↔ (alGet (alDel bids best) p).isSome := by
          intro p
          constructor
          · intro hp
            rw [alGet_alDel_ne bids best p (fun h => hbest_rest p hp h.symm)]
            exact (hmemiff p).mp (List.mem_cons_of_mem best hp)
          · intro hp
            by_cases hpb : p = best
            · rw [hpb, alGet_alDel_self] at hp
              exact absurd hp (by simp)
            · rw [alGet_alDel_ne bids best p (fun h => hpb h.symm)] at hp
              have := (hmemiff p).mpr hp
              exact (List.mem_cons.mp this).resolve_left hpb
        have hnd' : ((B ++ joinLevels (alDel bids best)).map Order.order_id).Nodup := by
          have := c1
          rw [hempty0] at this
          simpa using this
        have hA' : ∀ n x, alGet (fillLevel o q0 orders).2.2.1 n = some x →
            x.order_id = n ∧ x ∈ B ++ joinLevels (alDel bids best) := by
          intro n x hx
          have := c2 n x hx
          rw [hempty0] at this
          simpa using this
        have hB' : ∀ x, x ∈ B ++ joinLevels (alDel bids best) →
            alGet (fillLevel o q0 orders).2.2.1 x.order_id = some x := by
          intro x hx
          refine c3 x ?_
          rw [hempty0]
          simpa using hx
        obtain ⟨d1, d2, d3, d4, d5, d6, d7, d8, d9⟩ := ih
          (fillLevel o q0 orders).1 (alDel bids best)
          (fillLevel o q0 orders).2.2.1
          ((List.pairwise_cons.mp hsorted).2)
          hmemiff' (alKeys_alDel_nodup bids best hkeys)
          (fun p q h => hne p q (alGet_of_alDel _ _ _ _ h))
          (fun p q h => hlevel p q (alGet_of_alDel _ _ _ _ h))
          hnd' hA' hB'
        have hrw : matchSellGo o bids orders (best :: rest)
            = ((matchSellGo (fillLevel o q0 orders).1 (alDel bids best)
                (fillLevel o q0 orders).2.2.1 rest).1,
               (matchSellGo (fillLevel o q0 orders).1 (alDel bids best)
                (fillLevel o q0 orders).2.2.1 rest).2.1,
               (matchSellGo (fillLevel o q0 orders).1 (alDel bids best)
                (fillLevel o q0 orders).2.2.1 rest).2.2.1,
               (matchSellGo (fillLevel o q0 orders).1 (alDel bids best)
                (fillLevel o q0 orders).2.2.1 rest).2.2.2.1,
               ((fillLevel o q0 orders).2.2.2.map (fun t => (t.2.1, t.1, t.2.2))) ++
                 (matchSellGo (fillLevel o q0 orders).1 (alDel bids best)
                  (fillLevel o q0 orders).2.2.1 rest).2.2.2.2) := by
          simp only [matchSellGo, if_pos hguard, hlevel0, if_pos hempty0]
        rw [hrw]
        refine ⟨d1, d2, d3, d4, d5, d6, d7, d8, ?_⟩
        intro n hsome
        exact c4 n (d9 n hsome)
      · -- level survives (aggressor exhausted): write the queue back
        have hempty0 : ¬ (fillLevel o q0 orders).2.1 = [] := by
          rw [← hlevel0]; exact hempty
        have hq' : alGet (alSet bids best (fillLevel o q0 orders).2.1) best
            = some (fillLevel o q0 orders).2.1 :=
          alGet_alSet_self bids best _ (by simp [hq0])
        have hpermset : ((B ++ joinLevels (alSet bids best
            (fillLevel o q0 orders).2.1)).Perm
            ((B ++ joinLevels (alDel bids best)) ++ (fillLevel o q0 orders).2.1)) := by
          have h0 := joinLevels_perm_set bids best q0
            (fillLevel o q0 orders).2.1 hkeys hq0
          have h1 := h0.append_left B
          exact h1.trans (perm_rotate B _ (joinLevels (alDel bids best)))
        have hrw : matchSellGo o bids orders (best :: rest)
            = ((fillLevel o q0 orders).1,
               alSet bids best (fillLevel o q0 orders).2.1,
               (fillLevel o q0 orders).2.2.1, best :: rest,
               (fillLevel o q0 orders).2.2.2.map (fun t => (t.2.1, t.1, t.2.2))) := by
          simp only [matchSellGo, if_pos hguard, hlevel0, if_neg hempty0]
        rw [hrw]
        refine ⟨hsorted, ?_, ?_, ?_, ?_, ?_, ?_, ?_, c4⟩
        · intro p
          have hbool : (alGet (alSet bids best (fillLevel o q0 orders).2.1) p).isSome
              = (alGet bids p).isSome := alGet_isSome_alSet bids best p _
          rw [hbool]
          exact hmemiff p
        · rw [alKeys_alSet]
          exact hkeys
        · intro p q h
          by_cases hpb : p = best
          · rw [hpb] at h
            rw [hq'] at h
            rw [← Option.some_inj.mp h]
            exact hempty0
          · rw [alGet_alSet_ne bids best p _ (fun hh => hpb hh.symm)] at h
            exact hne p q h
        · intro p q h x hx
          by_cases hpb : p = best
          · rw [hpb] at h ⊢
            rw [hq'] at h
            rw [← Option.some_inj.mp h] at hx
            obtain ⟨y, hy, hpr, hsd⟩ := fillLevel_queue_fields o q0 orders x hx
            have := hlevel best q0 hq0 y hy
            exact ⟨hpr.trans this.1, hsd.trans this.2⟩
          · rw [alGet_alSet_ne bids best p _ (fun hh => hpb hh.symm)] at h
            exact hlevel p q h x hx
        · exact (List.Perm.nodup_iff (hpermset.map Order.order_id)).mpr c1
        · intro n x hx
          have := c2 n x hx
          exact ⟨this.1, hpermset.mem_iff.mpr this.2⟩
        · intro x hx
          exact c3 x (hpermset.mem_iff.mp hx)
    · have hrw : matchSellGo o bids orders (best :: rest)
          = (o, bids, orders, best :: rest, []) := by
        simp only [matchSellGo, if_neg hguard]
      rw [hrw]
      exact ⟨hsorted, hmemiff, hkeys, hne, hlevel, hnd, hA, hB, fun n h => h⟩


/-- All orders resting in the book (both sides). -/
def restingList (b : Book) : List Order :=
  joinLevels b.bids ++ joinLevels b.asks

/-- The order-book structural invariant: price lists are exactly the level
maps' keys in strictly sorted order, levels are non-empty, priced and sided
correctly, resting ids are unique, and the `orders` dict holds exactly the
resting orders. -/
structure WF (b : Book) : Prop where
  bidSorted : b.bid_prices.Sorted (· > ·)
  askSorted : b.ask_prices.Sorted (· < ·)
  bidMem : ∀ p : ℚ, p ∈ b.bid_prices ↔ (alGet b.bids p).isSome
  askMem : ∀ p : ℚ, p ∈ b.ask_prices ↔ (alGet b.asks p).isSome
  bidKeys : (alKeys b.bids).Nodup
  askKeys : (alKeys b.asks).Nodup
  bidNE : ∀ p q, alGet b.bids p = some q → q ≠ []
  askNE : ∀ p q, alGet b.asks p = some q → q ≠ []
  bidLevel : ∀ p q, alGet b.bids p = some q → ∀ x ∈ q, x.price = p ∧ x.side = Side.buy
  askLevel : ∀ p q, alGet b.asks p = some q → ∀ x ∈ q, x.price = p ∧ x.side = Side.sell
  idsND : ((restingList b).map Order.order_id).Nodup
  syncA : ∀ n x, alGet b.orders n = some x → x.order_id = n ∧ x ∈ restingList b
  syncB : ∀ x, x ∈ restingList b → alGet b.orders x.order_id = some x

theorem alGet_of_mem {α β : Type} [DecidableEq α] (m : List (α × β))
    (e : α × β) (hk : (alKeys m).Nodup) (he : e ∈ m) :
    alGet m e.1 = some e.2 := by
  induction m with
  | nil => exact absurd he (List.not_mem_nil e)
  | cons f rest ih =>
    rcases List.mem_cons.mp he with h | h
    · rw [h]
      simp [alGet]
    · have hf : ¬ f.1 = e.1 := by
        intro hh
        have : e.1 ∈ alKeys rest := List.mem_map_of_mem Prod.fst h
        rw [← hh] at this
        exact (List.nodup_cons.mp (by simpa [alKeys] using hk)).1 this
      rw [show alGet (f :: rest) e.1 = alGet rest e.1 from by simp [alGet, hf]]
      exact ih (by simpa [alKeys] using (List.nodup_cons.mp (by simpa [alKeys] using hk)).2) h

/-- The ladder loops never change the aggressor's id. -/
theorem matchBuyGo_agg_id (prices : List ℚ) (o : Order)
    (asks : List (ℚ × List Order)) (orders : List (ℕ × Order)) :
    (matchBuyGo o asks orders prices).1.order_id = o.order_id := by
  induction prices generalizing o asks orders with
  | nil => rfl
  | cons best rest ih =>
    by_cases hguard : 0 < o.remaining ∧ ¬ o.price < best
    · simp only [matchBuyGo, if_pos hguard]
      by_cases hempty : (fillLevel o ((alGet asks best).getD []) orders).2.1 = []
      · rw [if_pos hempty]
        rw [ih]
        exact (fillLevel_agg_fields o _ orders).1
      · rw [if_neg hempty]
        exact (fillLevel_agg_fields o _ orders).1
    · simp only [matchBuyGo, if_neg hguard]

theorem matchSellGo_agg_id (prices : List ℚ) (o : Order)
    (bids : List (ℚ × List Order)) (orders : List (ℕ × Order)) :
    (matchSellGo o bids orders prices).1.order_id = o.order_id := by
  induction prices generalizing o bids orders with
  | nil => rfl
  | cons best rest ih =>
    by_cases hguard : 0 < o.remaining ∧ ¬ o.price > best
    · simp only [matchSellGo, if_pos hguard]
      by_cases hempty : (fillLevel o ((alGet bids best).getD []) orders).2.1 = []
      · rw [if_pos hempty]
        rw [ih]
        exact (fillLevel_agg_fields o _ orders).1
      · rw [if_neg hempty]
        exact (fillLevel_agg_fields o _ orders).1
    · simp only [matchSellGo, if_neg hguard]

/-- Matching a buy aggressor preserves the whole book invariant (the bid side
is untouched), and never adds keys to the `orders` dict. -/
theorem matchBuy_WF (o : Order) (b : Book) (h : WF b) :
    WF (matchBuy o b).2.1 ∧
    (∀ n, (alGet (matchBuy o b).2.1.orders n).isSome → (alGet b.orders n).isSome) := by
  obtain ⟨d1, d2, d3, d4, d5, d6, d7, d8, d9⟩ :=
    matchBuyGo_WF b.ask_prices o b.asks b.orders (joinLevels b.bids)
      h.askSorted h.askMem h.askKeys h.askNE h.askLevel h.idsND h.syncA h.syncB
  constructor
  · exact
      { bidSorted := h.bidSorted
        askSorted := d1
        bidMem := h.bidMem
        askMem := d2
        bidKeys := h.bidKeys
        askKeys := d3
        bidNE := h.bidNE
        askNE := d4
        bidLevel := h.bidLevel
        askLevel := d5
        idsND := d6
        syncA := d7
        syncB := d8 }
  · exact d9

/-- Matching a sell aggressor preserves the whole book invariant (the ask
side is untouched), and never adds keys to the `orders` dict. -/
theorem matchSell_WF (o : Order) (b : Book) (h : WF b) :
    WF (matchSell o b).2.1 ∧
    (∀ n, (alGet (matchSell o b).2.1.orders n).isSome → (alGet b.orders n).isSome) := by
  have hperm0 : (restingList b).Perm
      (joinLevels b.asks ++ joinLevels b.bids) := List.perm_append_comm
  obtain ⟨d1, d2, d3, d4, d5, d6, d7, d8, d9⟩ :=
    matchSellGo_WF b.bid_prices o b.bids b.orders (joinLevels b.asks)
      h.bidSorted h.bidMem h.bidKeys h.bidNE h.bidLevel
      ((List.Perm.nodup_iff (hperm0.map Order.order_id)).mp h.idsND)
      (fun n x hx => ⟨(h.syncA n x hx).1, hperm0.mem_iff.mp (h.syncA n x hx).2⟩)
      (fun x hx => h.syncB x (hperm0.mem_iff.mpr hx))
  have hperm1 : (restingList (matchSell o b).2.1).Perm
      (joinLevels b.asks ++ joinLevels (matchSellGo o b.bids b.orders b.bid_prices).2.1) := by
    exact List.perm_append_comm
  constructor
  · exact
      { bidSorted := d1
        askSorted := h.askSorted
        bidMem := d2
        askMem := h.askMem
        bidKeys := d3
        askKeys := h.askKeys
        bidNE := d4
        askNE := h.askNE
        bidLevel := d5
        askLevel := h.askLevel
        idsND := (List.Perm.nodup_iff (hperm1.map Order.order_id)).mpr d6
        syncA := fun n x hx => ⟨(d7 n x hx).1, hperm1.mem_iff.mpr (d7 n x hx).2⟩
        syncB := fun x hx => d8 x (hperm1.mem_iff.mp hx) }
  · exact d9

/-- Appending a fresh price and re-sorting descending (`sort(reverse=True)`)
keeps the list strictly descending, with membership extended by the new
price. -/
theorem insort_desc (l : List ℚ) (p : ℚ) (hs : l.Sorted (· > ·)) (hp : p ∉ l) :
    ((l ++ [p]).insertionSort (fun a c => c ≤ a)).Sorted (· > ·) ∧
    (∀ x, x ∈ (l ++ [p]).insertionSort (fun a c => c ≤ a) ↔ x ∈ l ∨ x = p) := by
  haveI : IsTotal ℚ (fun a c : ℚ => c ≤ a) := ⟨fun a b => le_total b a⟩
  haveI : IsTrans ℚ (fun a c : ℚ => c ≤ a) := ⟨fun a b c h1 h2 => le_trans h2 h1⟩
  have hsorted : ((l ++ [p]).insertionSort (fun a c : ℚ => c ≤ a)).Sorted
      (fun a c => c ≤ a) := List.sorted_insertionSort _ _
  have hperm : ((l ++ [p]).insertionSort (fun a c : ℚ => c ≤ a)).Perm (l ++ [p]) :=
    List.perm_insertionSort _ _
  have hndl : l.Nodup := hs.imp (fun hab => ne_of_gt hab)
  have hnd : (l ++ [p]).Nodup := by
    rw [List.nodup_append]
    exact ⟨hndl, List.nodup_singleton p, by simpa [List.disjoint_singleton] using hp⟩
  have hndsort := (List.Perm.nodup_iff hperm).mpr hnd
  constructor
  · exact (hsorted.and hndsort).imp
      (fun hab => lt_of_le_of_ne hab.1 (Ne.symm hab.2))
  · intro x
    rw [hperm.mem_iff, List.mem_append, List.mem_singleton]

/-- Ascending variant for the ask side. -/
theorem insort_asc (l : List ℚ) (p : ℚ) (hs : l.Sorted (· < ·)) (hp : p ∉ l) :
    ((l ++ [p]).insertionSort (fun a c => a ≤ c)).Sorted (· < ·) ∧
    (∀ x, x ∈ (l ++ [p]).insertionSort (fun a c => a ≤ c) ↔ x ∈ l ∨ x = p) := by
  haveI : IsTotal ℚ (fun a c : ℚ => a ≤ c) := ⟨fun a b => le_total a b⟩
  haveI : IsTrans ℚ (fun a c : ℚ => a ≤ c) := ⟨fun a b c h1 h2 => le_trans h1 h2⟩
  have hsorted : ((l ++ [p]).insertionSort (fun a c : ℚ => a ≤ c)).Sorted
      (fun a c => a ≤ c) := List.sorted_insertionSort _ _
  have hperm : ((l ++ [p]).insertionSort (fun a c : ℚ => a ≤ c)).Perm (l ++ [p]) :=
    List.perm_insertionSort _ _
  have hndl : l.Nodup := hs.imp (fun hab => ne_of_lt hab)
  have hnd : (l ++ [p]).Nodup := by
    rw [List.nodup_append]
    exact ⟨hndl, List.nodup_singleton p, by simpa [List.disjoint_singleton] using hp⟩
  have hndsort := (List.Perm.nodup_iff hperm).mpr hnd
  constructor
  · exact (hsorted.and hndsort).imp
      (fun hab => lt_of_le_of_ne hab.1 hab.2)
  · intro x
    rw [hperm.mem_iff, List.mem_append, List.mem_singleton]

/-- Consing a fresh order onto the `orders` dict stays in sync with a resting
set that gained exactly that order. -/
theorem sync_cons_of_perm (o : Order) (L L' : List Order)
    (orders : List (ℕ × Order))
    (hperm : L'.Perm (o :: L))
    (hnd : (L.map Order.order_id).Nodup)
    (hfresh : ∀ x ∈ L, x.order_id ≠ o.order_id)
    (hA : ∀ n x, alGet orders n = some x → x.order_id = n ∧ x ∈ L)
    (hB : ∀ x, x ∈ L → alGet orders x.order_id = some x) :
    ((L'.map Order.order_id).Nodup) ∧
    (∀ n x, alGet ((o.order_id, o) :: orders) n = some x →
      x.order_id = n ∧ x ∈ L') ∧
    (∀ x, x ∈ L' → alGet ((o.order_id, o) :: orders) x.order_id = some x) := by
  refine ⟨?_, ?_, ?_⟩
  · refine (List.Perm.nodup_iff (hperm.map Order.order_id)).mpr ?_
    rw [List.map_cons, List.nodup_cons]
    constructor
    · intro hmem
      obtain ⟨x, hx, heq⟩ := List.mem_map.mp hmem
      exact hfresh x hx heq
    · exact hnd
  · intro n x hx
    by_cases hn : o.order_id = n
    · rw [show alGet ((o.order_id, o) :: orders) n = some o from by
        simp [alGet, hn]] at hx
      have : x = o := (Option.some_inj.mp hx).symm
      rw [this]
      exact ⟨hn, hperm.mem_iff.mpr (List.mem_cons_self o L)⟩
    · rw [show alGet ((o.order_id, o) :: orders) n = alGet orders n from by
        simp [alGet, hn]] at hx
      obtain ⟨h1, h2⟩ := hA n x hx
      exact ⟨h1, hperm.mem_iff.mpr (List.mem_cons_of_mem o h2)⟩
  · intro x hx
    rcases List.mem_cons.mp (hperm.mem_iff.mp hx) with h | h
    · rw [h]
      simp [alGet]
    · have hne : ¬ o.order_id = x.order_id := fun hc => hfresh x h hc.symm
      rw [show alGet ((o.order_id, o) :: orders) x.order_id = alGet orders x.order_id
        from by simp [alGet, hne]]
      exact hB x h

/-- Resting an order (`_add_to_book` followed by the `orders[id] = order`
alias) preserves the book invariant when the id is fresh. -/
theorem addToBook_cons_WF (b : Book) (o : Order) (h : WF b)
    (hfresh : ∀ x ∈ restingList b, x.order_id ≠ o.order_id) :
    WF { addToBook b o with
          orders := (o.order_id, o) :: (addToBook b o).orders } := by
  by_cases hs : o.side = Side.buy
  · cases hlevel : alGet b.bids o.price with
    | none =>
      have hb2 : { addToBook b o with
          orders := (o.order_id, o) :: (addToBook b o).orders }
          = ⟨(o.price, [o]) :: b.bids, b.asks,
             (b.bid_prices ++ [o.price]).insertionSort (fun a c => c ≤ a),
             b.ask_prices, (o.order_id, o) :: b.orders⟩ := by
        simp only [addToBook, if_pos hs, hlevel]
      rw [hb2]
      have hnp : o.price ∉ b.bid_prices := by
        intro hmem
        have := (h.bidMem o.price).mp hmem
        rw [hlevel] at this
        exact absurd this (by simp)
      obtain ⟨hins_sorted, hins_mem⟩ :=
        insort_desc b.bid_prices o.price h.bidSorted hnp
      have hperm : (restingList (⟨(o.price, [o]) :: b.bids, b.asks,
          (b.bid_prices ++ [o.price]).insertionSort (fun a c => c ≤ a),
          b.ask_prices, (o.order_id, o) :: b.orders⟩ : Book)).Perm
          (o :: restingList b) := by
        simp only [restingList, joinLevels, List.map_cons, List.flatten_cons]
        exact List.Perm.refl _
      obtain ⟨s1, s2, s3⟩ := sync_cons_of_perm o (restingList b) _ b.orders
        hperm h.idsND hfresh h.syncA h.syncB
      refine
        { bidSorted := hins_sorted
          askSorted := h.askSorted
          bidMem := ?_
          askMem := h.askMem
          bidKeys := ?_
          askKeys := h.askKeys
          bidNE := ?_
          askNE := h.askNE
          bidLevel := ?_
          askLevel := h.askLevel
          idsND := s1
          syncA := s2
          syncB := s3 }
      · intro p
        rw [hins_mem p]
        by_cases hp : o.price = p
        · simp [alGet, hp]
        · rw [show alGet ((o.price, [o]) :: b.bids) p = alGet b.bids p from by
            simp [alGet, hp]]
          constructor
          · intro hc
            rcases hc with hc | hc
            · exact (h.bidMem p).mp hc
            · exact absurd hc.symm hp
          · intro hc
            exact Or.inl ((h.bidMem p).mpr hc)
      · show (alKeys ((o.price, [o]) :: b.bids)).Nodup
        rw [show alKeys ((o.price, [o]) :: b.bids) = o.price :: alKeys b.bids
          from rfl, List.nodup_cons]
        exact ⟨(alGet_none_iff b.bids o.price).mp hlevel, h.bidKeys⟩
      · intro p q hq
        by_cases hp : o.price = p
        · rw [show alGet ((o.price, [o]) :: b.bids) p = some [o] from by
            simp [alGet, hp]] at hq
          rw [← Option.some_inj.mp hq]
          simp
        · rw [show alGet ((o.price, [o]) :: b.bids) p = alGet b.bids p from by
            simp [alGet, hp]] at hq
          exact h.bidNE p q hq
      · intro p q hq x hx
        by_cases hp : o.price = p
        · rw [show alGet ((o.price, [o]) :: b.bids) p = some [o] from by
            simp [alGet, hp]] at hq
          rw [← Option.some_inj.mp hq] at hx
          rw [List.mem_singleton.mp hx]
          exact ⟨hp, hs⟩
        · rw [show alGet ((o.price, [o]) :: b.bids) p = alGet b.bids p from by
            simp [alGet, hp]] at hq
          exact h.bidLevel p q hq x hx
    | some l =>
      have hb2 : { addToBook b o with
          orders := (o.order_id, o) :: (addToBook b o).orders }
          = ⟨alSet b.bids o.price (l ++ [o]), b.asks, b.bid_prices,
             b.ask_prices, (o.order_id, o) :: b.orders⟩ := by
        simp only [addToBook, if_pos hs, hlevel]
      rw [hb2]
      have hsome : (alGet b.bids o.price).isSome := by simp [hlevel]
      have hset : alGet (alSet b.bids o.price (l ++ [o])) o.price
          = some (l ++ [o]) := alGet_alSet_self _ _ _ hsome
      have hpermJ : (joinLevels (alSet b.bids o.price (l ++ [o]))).Perm
          ((l ++ [o]) ++ joinLevels (alDel b.bids o.price)) :=
        joinLevels_perm_set b.bids o.price l (l ++ [o]) h.bidKeys hlevel
      have hpermD : (joinLevels b.bids).Perm
          (l ++ joinLevels (alDel b.bids o.price)) :=
        joinLevels_perm_del b.bids o.price l h.bidKeys hlevel
      have hperm : (restingList (⟨alSet b.bids o.price (l ++ [o]), b.asks,
          b.bid_prices, b.ask_prices, (o.order_id, o) :: b.orders⟩ : Book)).Perm
          (o :: restingList b) := by
        show (joinLevels (alSet b.bids o.price (l ++ [o])) ++ joinLevels b.asks).Perm
          (o :: (joinLevels b.bids ++ joinLevels b.asks))
        have step1 := hpermJ.append_right (joinLevels b.asks)
        have step2 : (((l ++ [o]) ++ joinLevels (alDel b.bids o.price))
            ++ joinLevels b.asks).Perm
            (((o :: l) ++ joinLevels (alDel b.bids o.price)) ++ joinLevels b.asks) :=
          ((List.perm_append_singleton o l).append_right _).append_right _
        have step3 : ((o :: l) ++ joinLevels (alDel b.bids o.price))
            ++ joinLevels b.asks
            = o :: ((l ++ joinLevels (alDel b.bids o.price)) ++ joinLevels b.asks) := by
          simp
        have step4 : ((l ++ joinLevels (alDel b.bids o.price)) ++ joinLevels b.asks).Perm
            (joinLevels b.bids ++ joinLevels b.asks) :=
          (hpermD.symm).append_right _
        rw [step3] at step2
        exact (step1.trans step2).trans (step4.cons o)
      obtain ⟨s1, s2, s3⟩ := sync_cons_of_perm o (restingList b) _ b.orders
        hperm h.idsND hfresh h.syncA h.syncB
      refine
        { bidSorted := h.bidSorted
          askSorted := h.askSorted
          bidMem := ?_
          askMem := h.askMem
          bidKeys := by rw [show alKeys (alSet b.bids o.price (l ++ [o]))
            = alKeys b.bids from alKeys_alSet _ _ _]; exact h.bidKeys
          askKeys := h.askKeys
          bidNE := ?_
          askNE := h.askNE
          bidLevel := ?_
          askLevel := h.askLevel
          idsND := s1
          syncA := s2
          syncB := s3 }
      · intro p
        rw [show (alGet (alSet b.bids o.price (l ++ [o])) p).isSome
          = (alGet b.bids p).isSome from alGet_isSome_alSet _ _ _ _]
        exact h.bidMem p
      · intro p q hq
        by_cases hp : p = o.price
        · rw [hp, hset] at hq
          rw [← Option.some_inj.mp hq]
          simp
        · rw [alGet_alSet_ne b.bids o.price p _ (fun hh => hp hh.symm)] at hq
          exact h.bidNE p q hq
      · intro p q hq x hx
        by_cases hp : p = o.price
        · rw [hp, hset] at hq
          rw [← Option.some_inj.mp hq] at hx
          rcases List.mem_append.mp hx with hxl | hxo
          · have := h.bidLevel o.price l hlevel x hxl
            exact ⟨this.1.trans hp.symm, this.2⟩
          · rw [List.mem_singleton.mp hxo]
            exact ⟨hp.symm, hs⟩
        · rw [alGet_alSet_ne b.bids o.price p _ (fun hh => hp hh.symm)] at hq
          exact h.bidLevel p q hq x hx
  · cases hlevel : alGet b.asks o.price with
    | none =>
      have hb2 : { addToBook b o with
          orders := (o.order_id, o) :: (addToBook b o).orders }
          = ⟨b.bids, (o.price, [o]) :: b.asks, b.bid_prices,
             (b.ask_prices ++ [o.price]).insertionSort (fun a c => a ≤ c),
             (o.order_id, o) :: b.orders⟩ := by
        simp only [addToBook, if_neg hs, hlevel]
      rw [hb2]
      have hside : o.side = Side.sell := by
        cases hos : o.side
        · exact absurd hos hs
        · rfl
      have hnp : o.price ∉ b.ask_prices := by
        intro hmem
        have := (h.askMem o.price).mp hmem
        rw [hlevel] at this
        exact absurd this (by simp)
      obtain ⟨hins_sorted, hins_mem⟩ :=
        insort_asc b.ask_prices o.price h.askSorted hnp
      have hperm : (restingList (⟨b.bids, (o.price, [o]) :: b.asks,
          b.bid_prices,
          (b.ask_prices ++ [o.price]).insertionSort (fun a c => a ≤ c),
          (o.order_id, o) :: b.orders⟩ : Book)).Perm
          (o :: restingList b) := by
        show (joinLevels b.bids ++ joinLevels ((o.price, [o]) :: b.asks)).Perm
          (o :: (joinLevels b.bids ++ joinLevels b.asks))
        have : joinLevels ((o.price, [o]) :: b.asks) = o :: joinLevels b.asks := by
          simp [joinLevels]
        rw [this]
        have h1 : (joinLevels b.bids ++ o :: joinLevels b.asks).Perm
            (o :: (joinLevels b.bids ++ joinLevels b.asks)) :=
          List.perm_middle
        exact h1
      obtain ⟨s1, s2, s3⟩ := sync_cons_of_perm o (restingList b) _ b.orders
        hperm h.idsND hfresh h.syncA h.syncB
      refine
        { bidSorted := h.bidSorted
          askSorted := hins_sorted
          bidMem := h.bidMem
          askMem := ?_
          bidKeys := h.bidKeys
          askKeys := ?_
          bidNE := h.bidNE
          askNE := ?_
          bidLevel := h.bidLevel
          askLevel := ?_
          idsND := s1
          syncA := s2
          syncB := s3 }
      · intro p
        rw [hins_mem p]
        by_cases hp : o.price = p
        · simp [alGet, hp]
        · rw [show alGet ((o.price, [o]) :: b.asks) p = alGet b.asks p from by
            simp [alGet, hp]]
          constructor
          · intro hc
            rcases hc with hc | hc
            · exact (h.askMem p).mp hc
            · exact absurd hc.symm hp
          · intro hc
            exact Or.inl ((h.askMem p).mpr hc)
      · show (alKeys ((o.price, [o]) :: b.asks)).Nodup
        rw [show alKeys ((o.price, [o]) :: b.asks) = o.price :: alKeys b.asks
          from rfl, List.nodup_cons]
        exact ⟨(alGet_none_iff b.asks o.price).mp hlevel, h.askKeys⟩
      · intro p q hq
        by_cases hp : o.price = p
        · rw [show alGet ((o.price, [o]) :: b.asks) p = some [o] from by
            simp [alGet, hp]] at hq
          rw [← Option.some_inj.mp hq]
          simp
        · rw [show alGet ((o.price, [o]) :: b.asks) p = alGet b.asks p from by
            simp [alGet, hp]] at hq
          exact h.askNE p q hq
      · intro p q hq x hx
        by_cases hp : o.price = p
        · rw [show alGet ((o.price, [o]) :: b.asks) p = some [o] from by
            simp [alGet, hp]] at hq
          rw [← Option.some_inj.mp hq] at hx
          rw [List.mem_singleton.mp hx]
          exact ⟨hp, hside⟩
        · rw [show alGet ((o.price, [o]) :: b.asks) p = alGet b.asks p from by
            simp [alGet, hp]] at hq
          exact h.askLevel p q hq x hx
    | some l =>
      have hb2 : { addToBook b o with
          orders := (o.order_id, o) :: (addToBook b o).orders }
          = ⟨b.bids, alSet b.asks o.price (l ++ [o]), b.bid_prices,
             b.ask_prices, (o.order_id, o) :: b.orders⟩ := by
        simp only [addToBook, if_neg hs, hlevel]
      rw [hb2]
      have hside : o.side = Side.sell := by
        cases hos : o.side
        · exact absurd hos hs
        · rfl
      have hsome : (alGet b.asks o.price).isSome := by simp [hlevel]
      have hset : alGet (alSet b.asks o.price (l ++ [o])) o.price
          = some (l ++ [o]) := alGet_alSet_self _ _ _ hsome
      have hpermJ : (joinLevels (alSet b.asks o.price (l ++ [o]))).Perm
          ((l ++ [o]) ++ joinLevels (alDel b.asks o.price)) :=
        joinLevels_perm_set b.asks o.price l (l ++ [o]) h.askKeys hlevel
      have hpermD : (joinLevels b.asks).Perm
          (l ++ joinLevels (alDel b.asks o.price)) :=
        joinLevels_perm_del b.asks o.price l h.askKeys hlevel
      have hperm : (restingList (⟨b.bids, alSet b.asks o.price (l ++ [o]),
          b.bid_prices, b.ask_prices, (o.order_id, o) :: b.orders⟩ : Book)).Perm
          (o :: restingList b) := by
        show (joinLevels b.bids ++ joinLevels (alSet b.asks o.price (l ++ [o]))).Perm
          (o :: (joinLevels b.bids ++ joinLevels b.asks))
        have step1 := hpermJ.append_left (joinLevels b.bids)
        have step2 : (joinLevels b.bids ++
            ((l ++ [o]) ++ joinLevels (alDel b.asks o.price))).Perm
            (joinLevels b.bids ++
              ((o :: l) ++ joinLevels (alDel b.asks o.price))) :=
          (((List.perm_append_singleton o l).append_right _)).append_left _
        have step3 : joinLevels b.bids ++
            ((o :: l) ++ joinLevels (alDel b.asks o.price))
            = joinLevels b.bids ++
              (o :: (l ++ joinLevels (alDel b.asks o.price))) := by simp
        have step4 : (joinLevels b.bids ++
            (o :: (l ++ joinLevels (alDel b.asks o.price)))).Perm
            (o :: (joinLevels b.bids ++ (l ++ joinLevels (alDel b.asks o.price)))) :=
          List.perm_middle
        have step5 : (joinLevels b.bids ++
            (l ++ joinLevels (alDel b.asks o.price))).Perm
            (joinLevels b.bids ++ joinLevels b.asks) :=
          (hpermD.symm).append_left _
        rw [step3] at step2
        exact ((step1.trans step2).trans step4).trans (step5.cons o)
      obtain ⟨s1, s2, s3⟩ := sync_cons_of_perm o (restingList b) _ b.orders
        hperm h.idsND hfresh h.syncA h.syncB
      refine
        { bidSorted := h.bidSorted
          askSorted := h.askSorted
          bidMem := h.bidMem
          askMem := ?_
          bidKeys := h.bidKeys
          askKeys := by rw [show alKeys (alSet b.asks o.price (l ++ [o]))
            = alKeys b.asks from alKeys_alSet _ _ _]; exact h.askKeys
          bidNE := h.bidNE
          askNE := ?_
          bidLevel := h.bidLevel
          askLevel := ?_
          idsND := s1
          syncA := s2
          syncB := s3 }
      · intro p
        rw [show (alGet (alSet b.asks o.price (l ++ [o])) p).isSome
          = (alGet b.asks p).isSome from alGet_isSome_alSet _ _ _ _]
        exact h.askMem p
      · intro p q hq
        by_cases hp : p = o.price
        · rw [hp, hset] at hq
          rw [← Option.some_inj.mp hq]
          simp
        · rw [alGet_alSet_ne b.asks o.price p _ (fun hh => hp hh.symm)] at hq
          exact h.askNE p q hq
      · intro p q hq x hx
        by_cases hp : p = o.price
        · rw [hp, hset] at hq
          rw [← Option.some_inj.mp hq] at hx
          rcases List.mem_append.mp hx with hxl | hxo
          · have := h.askLevel o.price l hlevel x hxl
            exact ⟨this.1.trans hp.symm, this.2⟩
          · rw [List.mem_singleton.mp hxo]
            exact ⟨hp.symm, hside⟩
        · rw [alGet_alSet_ne b.asks o.price p _ (fun hh => hp hh.symm)] at hq
          exact h.askLevel p q hq x hx

/-- Deleting an order's entry from the `orders` dict stays in sync with a
resting set that lost exactly that order. -/
theorem sync_del_of_perm (o : Order) (L L1 : List Order)
    (orders : List (ℕ × Order))
    (hperm : L.Perm (o :: L1))
    (hnd : (L.map Order.order_id).Nodup)
    (hA : ∀ n x, alGet orders n = some x → x.order_id = n ∧ x ∈ L)
    (hB : ∀ x, x ∈ L → alGet orders x.order_id = some x) :
    (L1.map Order.order_id).Nodup ∧
    (∀ n x, alGet (alDel orders o.order_id) n = some x →
      x.order_id = n ∧ x ∈ L1) ∧
    (∀ x, x ∈ L1 → alGet (alDel orders o.order_id) x.order_id = some x) := by
  have hnd1 : ((o :: L1).map Order.order_id).Nodup :=
    (List.Perm.nodup_iff (hperm.map Order.order_id)).mp hnd
  rw [List.map_cons, List.nodup_cons] at hnd1
  refine ⟨hnd1.2, ?_, ?_⟩
  · intro n x hx
    by_cases hn : n = o.order_id
    · rw [hn, alGet_alDel_self] at hx
      exact absurd hx (by simp)
    · rw [alGet_alDel_ne orders o.order_id n (fun hh => hn hh.symm)] at hx
      obtain ⟨h1, h2⟩ := hA n x hx
      rcases List.mem_cons.mp (hperm.mem_iff.mp h2) with h3 | h3
      · exact absurd (h3 ▸ h1) (fun hh => hn hh.symm)
      · exact ⟨h1, h3⟩
  · intro x hx
    have hxo : x.order_id ≠ o.order_id := by
      intro hh
      exact hnd1.1 (hh ▸ List.mem_map_of_mem Order.order_id hx)
    rw [alGet_alDel_ne orders o.order_id x.order_id (fun hh => hxo hh.symm)]
    exact hB x (hperm.mem_iff.mpr (List.mem_cons.mpr (Or.inr hx)))

/-- A resting buy order is found at its own price level of the bid map. -/
theorem resting_level_buy (b : Book) (h : WF b) (o : Order)
    (ho : o ∈ restingList b) (hs : o.side = Side.buy) :
    ∃ q, alGet b.bids o.price = some q ∧ o ∈ q := by
  rcases List.mem_append.mp ho with hm | hm
  · obtain ⟨e, he, hoq⟩ := mem_joinLevels.mp hm
    have halg : alGet b.bids e.1 = some e.2 := alGet_of_mem b.bids e h.bidKeys he
    have hprice := (h.bidLevel e.1 e.2 halg o hoq).1
    exact ⟨e.2, by rw [hprice]; exact halg, hoq⟩
  · obtain ⟨e, he, hoq⟩ := mem_joinLevels.mp hm
    have halg : alGet b.asks e.1 = some e.2 := alGet_of_mem b.asks e h.askKeys he
    have := (h.askLevel e.1 e.2 halg o hoq).2
    rw [hs] at this
    exact absurd this (by simp)

/-- A resting sell order is found at its own price level of the ask map. -/
theorem resting_level_sell (b : Book) (h : WF b) (o : Order)
    (ho : o ∈ restingList b) (hs : o.side = Side.sell) :
    ∃ q, alGet b.asks o.price = some q ∧ o ∈ q := by
  rcases List.mem_append.mp ho with hm | hm
  · obtain ⟨e, he, hoq⟩ := mem_joinLevels.mp hm
    have halg : alGet b.bids e.1 = some e.2 := alGet_of_mem b.bids e h.bidKeys he
    have := (h.bidLevel e.1 e.2 halg o hoq).2
    rw [hs] at this
    exact absurd this (by simp)
  · obtain ⟨e, he, hoq⟩ := mem_joinLevels.mp hm
    have halg : alGet b.asks e.1 = some e.2 := alGet_of_mem b.asks e h.askKeys he
    have hprice := (h.askLevel e.1 e.2 halg o hoq).1
    exact ⟨e.2, by rw [hprice]; exact halg, hoq⟩

/-- `add_order` preserves the book invariant when the incoming order's id is
fresh. -/
theorem addOrder_WF (b : Book) (o : Order) (h : WF b)
    (hfresh : ∀ x ∈ restingList b, x.order_id ≠ o.order_id) :
    WF (addOrder b o).1 := by
  by_cases hs : o.side = Side.buy
  · obtain ⟨hWF, hmono⟩ := matchBuy_WF o b h
    have hid : (matchBuy o b).1.order_id = o.order_id :=
      matchBuyGo_agg_id b.ask_prices o b.asks b.orders
    have hfresh2 : ∀ x ∈ restingList (matchBuy o b).2.1,
        x.order_id ≠ (matchBuy o b).1.order_id := by
      intro x hx
      rw [hid]
      have hsome := hWF.syncB x hx
      have hb : (alGet b.orders x.order_id).isSome :=
        hmono x.order_id (by rw [hsome]; rfl)
      obtain ⟨y, hy⟩ := Option.isSome_iff_exists.mp hb
      obtain ⟨hy1, hy2⟩ := h.syncA x.order_id y hy
      rw [← hy1]
      exact hfresh y hy2
    by_cases hrest : 0 < (matchBuy o b).1.remaining ∧
        (matchBuy o b).1.status ≠ OStatus.filled
    · have hrw : (addOrder b o).1 =
          { addToBook (matchBuy o b).2.1 (matchBuy o b).1 with
            orders := ((matchBuy o b).1.order_id, (matchBuy o b).1)
              :: (addToBook (matchBuy o b).2.1 (matchBuy o b).1).orders } := by
        simp only [addOrder, if_pos hs, if_pos hrest]
      rw [hrw]
      exact addToBook_cons_WF _ _ hWF hfresh2
    · have hrw : (addOrder b o).1 = (matchBuy o b).2.1 := by
        simp only [addOrder, if_pos hs, if_neg hrest]
      rw [hrw]
      exact hWF
  · obtain ⟨hWF, hmono⟩ := matchSell_WF o b h
    have hid : (matchSell o b).1.order_id = o.order_id :=
      matchSellGo_agg_id b.bid_prices o b.bids b.orders
    have hfresh2 : ∀ x ∈ restingList (matchSell o b).2.1,
        x.order_id ≠ (matchSell o b).1.order_id := by
      intro x hx
      rw [hid]
      have hsome := hWF.syncB x hx
      have hb : (alGet b.orders x.order_id).isSome :=
        hmono x.order_id (by rw [hsome]; rfl)
      obtain ⟨y, hy⟩ := Option.isSome_iff_exists.mp hb
      obtain ⟨hy1, hy2⟩ := h.syncA x.order_id y hy
      rw [← hy1]
      exact hfresh y hy2
    by_cases hrest : 0 < (matchSell o b).1.remaining ∧
        (matchSell o b).1.status ≠ OStatus.filled
    · have hrw : (addOrder b o).1 =
          { addToBook (matchSell o b).2.1 (matchSell o b).1 with
            orders := ((matchSell o b).1.order_id, (matchSell o b).1)
              :: (addToBook (matchSell o b).2.1 (matchSell o b).1).orders } := by
        simp only [addOrder, if_neg hs, if_pos hrest]
      rw [hrw]
      exact addToBook_cons_WF _ _ hWF hfresh2
    · have hrw : (addOrder b o).1 = (matchSell o b).2.1 := by
        simp only [addOrder, if_neg hs, if_neg hrest]
      rw [hrw]
      exact hWF

/-- A non-empty queue whose `erase` is empty is the singleton of the erased
element. -/
theorem erase_eq_nil_singleton (l : List Order) (o : Order) (hol : o ∈ l)
    (hE : l.erase o = []) : l = [o] := by
  cases l with
  | nil => exact absurd hol (List.not_mem_nil o)
  | cons x xs =>
    by_cases hx : x = o
    · rw [hx] at hE ⊢
      rw [List.erase_cons_head] at hE
      rw [hE]
    · have hbeq : ¬(x == o) = true := by
        simp only [beq_false_of_ne hx, not_false_eq_true, reduceCtorEq]
      rw [List.erase_cons_tail hbeq] at hE
      exact absurd hE (by simp)

/-- `cancel_order` preserves the book invariant. -/
theorem cancelOrder_WF (b : Book) (n : ℕ) (h : WF b) :
    WF (cancelOrder b n).1 := by
  cases ho : alGet b.orders n with
  | none =>
    have hrw : (cancelOrder b n).1 = b := by simp only [cancelOrder, ho]
    rw [hrw]
    exact h
  | some o =>
    obtain ⟨hoid, homem⟩ := h.syncA n o ho
    by_cases hs : o.side = Side.buy
    · obtain ⟨l, hl, hol⟩ := resting_level_buy b h o homem hs
      have hpermB := joinLevels_perm_del b.bids o.price l h.bidKeys hl
      have hndp : b.bid_prices.Nodup := h.bidSorted.imp (fun hab => ne_of_gt hab)
      by_cases hE : l.erase o = []
      · have hlo : l = [o] := erase_eq_nil_singleton l o hol hE
        have hrw : (cancelOrder b n).1 =
            ⟨alDel b.bids o.price, b.asks, b.bid_prices.erase o.price,
             b.ask_prices, alDel b.orders n⟩ := by
          simp only [cancelOrder, ho, if_pos hs, hl, if_pos hE]
        rw [hrw]
        rw [hlo] at hpermB
        have hperm : (restingList b).Perm
            (o :: restingList (⟨alDel b.bids o.price, b.asks,
              b.bid_prices.erase o.price, b.ask_prices,
              alDel b.orders n⟩ : Book)) := by
          show (joinLevels b.bids ++ joinLevels b.asks).Perm
            (o :: (joinLevels (alDel b.bids o.price) ++ joinLevels b.asks))
          have := hpermB.append_right (joinLevels b.asks)
          simpa using this
        obtain ⟨s1, s2, s3⟩ := sync_del_of_perm o (restingList b) _ b.orders
          hperm h.idsND h.syncA h.syncB
        rw [hoid] at s2 s3
        refine
          { bidSorted := List.Pairwise.sublist (List.erase_sublist _ _) h.bidSorted
            askSorted := h.askSorted
            bidMem := ?_
            askMem := h.askMem
            bidKeys := alKeys_alDel_nodup _ _ h.bidKeys
            askKeys := h.askKeys
            bidNE := ?_
            askNE := h.askNE
            bidLevel := ?_
            askLevel := h.askLevel
            idsND := s1
            syncA := s2
            syncB := s3 }
        · intro p
          by_cases hp : p = o.price
          · rw [hp]
            exact iff_of_false hndp.not_mem_erase
              (by rw [alGet_alDel_self]; simp)
          · rw [List.mem_erase_of_ne hp,
              alGet_alDel_ne b.bids o.price p (fun hh => hp hh.symm)]
            exact h.bidMem p
        · intro p q hq
          by_cases hp : p = o.price
          · rw [hp, alGet_alDel_self] at hq
            exact absurd hq (by simp)
          · rw [alGet_alDel_ne b.bids o.price p (fun hh => hp hh.symm)] at hq
            exact h.bidNE p q hq
        · intro p q hq x hx
          by_cases hp : p = o.price
          · rw [hp, alGet_alDel_self] at hq
            exact absurd hq (by simp)
          · rw [alGet_alDel_ne b.bids o.price p (fun hh => hp hh.symm)] at hq
            exact h.bidLevel p q hq x hx
      · have hrw : (cancelOrder b n).1 =
            ⟨alSet b.bids o.price (l.erase o), b.asks, b.bid_prices,
             b.ask_prices, alDel b.orders n⟩ := by
          simp only [cancelOrder, ho, if_pos hs, hl, if_neg hE]
        rw [hrw]
        have hsome : (alGet b.bids o.price).isSome := by simp [hl]
        have hset : alGet (alSet b.bids o.price (l.erase o)) o.price
            = some (l.erase o) := alGet_alSet_self _ _ _ hsome
        have hpermS := joinLevels_perm_set b.bids o.price l (l.erase o)
          h.bidKeys hl
        have hce : l.Perm (o :: l.erase o) := List.perm_cons_erase hol
        have hperm : (restingList b).Perm
            (o :: restingList (⟨alSet b.bids o.price (l.erase o), b.asks,
              b.bid_prices, b.ask_prices, alDel b.orders n⟩ : Book)) := by
          show (joinLevels b.bids ++ joinLevels b.asks).Perm
            (o :: (joinLevels (alSet b.bids o.price (l.erase o))
              ++ joinLevels b.asks))
          have step1 := hpermB.append_right (joinLevels b.asks)
          have step2 : ((l ++ joinLevels (alDel b.bids o.price))
              ++ joinLevels b.asks).Perm
              (((o :: l.erase o) ++ joinLevels (alDel b.bids o.price))
                ++ joinLevels b.asks) :=
            (hce.append_right _).append_right _
          have step3 : ((o :: l.erase o) ++ joinLevels (alDel b.bids o.price))
              ++ joinLevels b.asks
              = o :: ((l.erase o ++ joinLevels (alDel b.bids o.price))
                ++ joinLevels b.asks) := by simp
          have step4 : ((l.erase o ++ joinLevels (alDel b.bids o.price))
              ++ joinLevels b.asks).Perm
              (joinLevels (alSet b.bids o.price (l.erase o))
                ++ joinLevels b.asks) :=
            (hpermS.symm).append_right _
          rw [step3] at step2
          exact (step1.trans step2).trans (step4.cons o)
        obtain ⟨s1, s2, s3⟩ := sync_del_of_perm o (restingList b) _ b.orders
          hperm h.idsND h.syncA h.syncB
        rw [hoid] at s2 s3
        refine
          { bidSorted := h.bidSorted
            askSorted := h.askSorted
            bidMem := ?_
            askMem := h.askMem
            bidKeys := by rw [show alKeys (alSet b.bids o.price (l.erase o))
              = alKeys b.bids from alKeys_alSet _ _ _]; exact h.bidKeys
            askKeys := h.askKeys
            bidNE := ?_
            askNE := h.askNE
            bidLevel := ?_
            askLevel := h.askLevel
            idsND := s1
            syncA := s2
            syncB := s3 }
        · intro p
          rw [show (alGet (alSet b.bids o.price (l.erase o)) p).isSome
            = (alGet b.bids p).isSome from alGet_isSome_alSet _ _ _ _]
          exact h.bidMem p
        · intro p q hq
          by_cases hp : p = o.price
          · rw [hp, hset] at hq
            rw [← Option.some_inj.mp hq]
            exact hE
          · rw [alGet_alSet_ne b.bids o.price p _ (fun hh => hp hh.symm)] at hq
            exact h.bidNE p q hq
        · intro p q hq x hx
          by_cases hp : p = o.price
          · rw [hp, hset] at hq
            rw [← Option.some_inj.mp hq] at hx
            have := h.bidLevel o.price l hl x (List.mem_of_mem_erase hx)
            exact ⟨this.1.trans hp.symm, this.2⟩
          · rw [alGet_alSet_ne b.bids o.price p _ (fun hh => hp hh.symm)] at hq
            exact h.bidLevel p q hq x hx
    · have hside : o.side = Side.sell := by
        cases hos : o.side
        · exact absurd hos hs
        · rfl
      obtain ⟨l, hl, hol⟩ := resting_level_sell b h o homem hside
      have hpermB := joinLevels_perm_del b.asks o.price l h.askKeys hl
      have hndp : b.ask_prices.Nodup := h.askSorted.imp (fun hab => ne_of_lt hab)
      by_cases hE : l.erase o = []
      · have hlo : l = [o] := erase_eq_nil_singleton l o hol hE
        have hrw : (cancelOrder b n).1 =
            ⟨b.bids, alDel b.asks o.price, b.bid_prices,
             b.ask_prices.erase o.price, alDel b.orders n⟩ := by
          simp only [cancelOrder, ho, if_neg hs, hl, if_pos hE]
        rw [hrw]
        rw [hlo] at hpermB
        have hperm : (restingList b).Perm
            (o :: restingList (⟨b.bids, alDel b.asks o.price, b.bid_prices,
              b.ask_prices.erase o.price, alDel b.orders n⟩ : Book)) := by
          show (joinLevels b.bids ++ joinLevels b.asks).Perm
            (o :: (joinLevels b.bids ++ joinLevels (alDel b.asks o.price)))
          have step1 := hpermB.append_left (joinLevels b.bids)
          have step2 : (joinLevels b.bids
              ++ (o :: joinLevels (alDel b.asks o.price))).Perm
              (o :: (joinLevels b.bids ++ joinLevels (alDel b.asks o.price))) :=
            List.perm_middle
          exact (by simpa using step1 : (joinLevels b.bids ++ joinLevels b.asks).Perm
            (joinLevels b.bids ++ (o :: joinLevels (alDel b.asks o.price)))).trans step2
        obtain ⟨s1, s2, s3⟩ := sync_del_of_perm o (restingList b) _ b.orders
          hperm h.idsND h.syncA h.syncB
        rw [hoid] at s2 s3
        refine
          { bidSorted := h.bidSorted
            askSorted := List.Pairwise.sublist (List.erase_sublist _ _) h.askSorted
            bidMem := h.bidMem
            askMem := ?_
            bidKeys := h.bidKeys
            askKeys := alKeys_alDel_nodup _ _ h.askKeys
            bidNE := h.bidNE
            askNE := ?_
            bidLevel := h.bidLevel
            askLevel := ?_
            idsND := s1
            syncA := s2
            syncB := s3 }
        · intro p
          by_cases hp : p = o.price
          · rw [hp]
            exact iff_of_false hndp.not_mem_erase
              (by rw [alGet_alDel_self]; simp)
          · rw [List.mem_erase_of_ne hp,
              alGet_alDel_ne b.asks o.price p (fun hh => hp hh.symm)]
            exact h.askMem p
        · intro p q hq
          by_cases hp : p = o.price
          · rw [hp, alGet_alDel_self] at hq
            exact absurd hq (by simp)
          · rw [alGet_alDel_ne b.asks o.price p (fun hh => hp hh.symm)] at hq
            exact h.askNE p q hq
        · intro p q hq x hx
          by_cases hp : p = o.price
          · rw [hp, alGet_alDel_self] at hq
            exact absurd hq (by simp)
          · rw [alGet_alDel_ne b.asks o.price p (fun hh => hp hh.symm)] at hq
            exact h.askLevel p q hq x hx
      · have hrw : (cancelOrder b n).1 =
            ⟨b.bids, alSet b.asks o.price (l.erase o), b.bid_prices,
             b.ask_prices, alDel b.orders n⟩ := by
          simp only [cancelOrder, ho, if_neg hs, hl, if_neg hE]
        rw [hrw]
        have hsome : (alGet b.asks o.price).isSome := by simp [hl]
        have hset : alGet (alSet b.asks o.price (l.erase o)) o.price
            = some (l.erase o) := alGet_alSet_self _ _ _ hsome
        have hpermS := joinLevels_perm_set b.asks o.price l (l.erase o)
          h.askKeys hl
        have hce : l.Perm (o :: l.erase o) := List.perm_cons_erase hol
        have hperm : (restingList b).Perm
            (o :: restingList (⟨b.bids, alSet b.asks o.price (l.erase o),
              b.bid_prices, b.ask_prices, alDel b.orders n⟩ : Book)) := by
          show (joinLevels b.bids ++ joinLevels b.asks).Perm
            (o :: (joinLevels b.bids
              ++ joinLevels (alSet b.asks o.price (l.erase o))))
          have step1 := hpermB.append_left (joinLevels b.bids)
          have step2 : (joinLevels b.bids
              ++ (l ++ joinLevels (alDel b.asks o.price))).Perm
              (joinLevels b.bids
                ++ ((o :: l.erase o) ++ joinLevels (alDel b.asks o.price))) :=
            ((hce.append_right _)).append_left _
          have step3 : joinLevels b.bids
              ++ ((o :: l.erase o) ++ joinLevels (alDel b.asks o.price))
              = joinLevels b.bids
                ++ (o :: (l.erase o ++ joinLevels (alDel b.asks o.price))) := by
            simp
          have step4 : (joinLevels b.bids
              ++ (o :: (l.erase o ++ joinLevels (alDel b.asks o.price)))).Perm
              (o :: (joinLevels b.bids
                ++ (l.erase o ++ joinLevels (alDel b.asks o.price)))) :=
            List.perm_middle
          have step5 : (joinLevels b.bids
              ++ (l.erase o ++ joinLevels (alDel b.asks o.price))).Perm
              (joinLevels b.bids
                ++ joinLevels (alSet b.asks o.price (l.erase o))) :=
            (hpermS.symm).append_left _
          rw [step3] at step2
          exact ((step1.trans step2).trans step4).trans (step5.cons o)
        obtain ⟨s1, s2, s3⟩ := sync_del_of_perm o (restingList b) _ b.orders
          hperm h.idsND h.syncA h.syncB
        rw [hoid] at s2 s3
        refine
          { bidSorted := h.bidSorted
            askSorted := h.askSorted
            bidMem := h.bidMem
            askMem := ?_
            bidKeys := h.bidKeys
            askKeys := by rw [show alKeys (alSet b.asks o.price (l.erase o))
              = alKeys b.asks from alKeys_alSet _ _ _]; exact h.askKeys
            bidNE := h.bidNE
            askNE := ?_
            bidLevel := h.bidLevel
            askLevel := ?_
            idsND := s1
            syncA := s2
            syncB := s3 }
        · intro p
          rw [show (alGet (alSet b.asks o.price (l.erase o)) p).isSome
            = (alGet b.asks p).isSome from alGet_isSome_alSet _ _ _ _]
          exact h.askMem p
        · intro p q hq
          by_cases hp : p = o.price
          · rw [hp, hset] at hq
            rw [← Option.some_inj.mp hq]
            exact hE
          · rw [alGet_alSet_ne b.asks o.price p _ (fun hh => hp hh.symm)] at hq
            exact h.askNE p q hq
        · intro p q hq x hx
          by_cases hp : p = o.price
          · rw [hp, hset] at hq
            rw [← Option.some_inj.mp hq] at hx
            have := h.askLevel o.price l hl x (List.mem_of_mem_erase hx)
            exact ⟨this.1.trans hp.symm, this.2⟩
          · rw [alGet_alSet_ne b.asks o.price p _ (fun hh => hp hh.symm)] at hq
            exact h.askLevel p q hq x hx

/-- Books reachable from a fresh `OrderBook()` by the engine's public
operations: `add_order` (the engine's `_next_order_id` counter hands every
incoming order an id no resting order carries) and `cancel_order`. -/
inductive Reach : Book → Prop where
  | empty : Reach Book.empty
  | place (b : Book) (o : Order) (hb : Reach b)
      (hfresh : ∀ x ∈ restingList b, x.order_id ≠ o.order_id) :
      Reach (addOrder b o).1
  | cancel (b : Book) (n : ℕ) (hb : Reach b) : Reach (cancelOrder b n).1

/-- The empty book satisfies the invariant. -/
theorem WF_empty : WF Book.empty := by
  refine
    { bidSorted := List.sorted_nil
      askSorted := List.sorted_nil
      bidMem := ?_
      askMem := ?_
      bidKeys := List.nodup_nil
      askKeys := List.nodup_nil
      bidNE := ?_
      askNE := ?_
      bidLevel := ?_
      askLevel := ?_
      idsND := List.nodup_nil
      syncA := ?_
      syncB := ?_ } <;>
    simp [Book.empty, alGet, restingList, joinLevels]

/-- Every reachable book satisfies the invariant. -/
theorem reach_WF (b : Book) (h : Reach b) : WF b := by
  induction h with
  | empty => exact WF_empty
  | place b o hb hfresh ih => exact addOrder_WF b o ih hfresh
  | cancel b n hb ih => exact cancelOrder_WF b n ih

/-- C10: in every book state reachable by any sequence of `add_order` (with
engine-issued fresh ids) and `cancel_order` operations, `bid_prices` holds
exactly the keys of the `bids` map in strictly decreasing order, `ask_prices`
exactly the keys of the `asks` map in strictly increasing order, every listed
price level is a non-empty queue, and the `orders` dict contains exactly the
orders resting at some level (every stored entry is a resting order filed
under its own id, and every resting order is stored). -/
theorem orderbook_invariants_reachable (b : Book) (hb : Reach b) :
    b.bid_prices.Sorted (· > ·) ∧
    b.ask_prices.Sorted (· < ·) ∧
    (∀ p : ℚ, p ∈ b.bid_prices ↔ p ∈ alKeys b.bids) ∧
    (∀ p : ℚ, p ∈ b.ask_prices ↔ p ∈ alKeys b.asks) ∧
    (∀ p q, alGet b.bids p = some q → q ≠ []) ∧
    (∀ p q, alGet b.asks p = some q → q ≠ []) ∧
    (∀ n x, alGet b.orders n = some x → x.order_id = n ∧ x ∈ restingList b) ∧
    (∀ x, x ∈ restingList b → alGet b.orders x.order_id = some x) := by
  have h := reach_WF b hb
  refine ⟨h.bidSorted, h.askSorted, ?_, ?_, h.bidNE, h.askNE, h.syncA, h.syncB⟩
  · intro p
    rw [h.bidMem p]
    constructor
    · intro hsome
      by_contra hk
      rw [(alGet_none_iff b.bids p).mpr hk] at hsome
      exact absurd hsome (by simp)
    · intro hk
      cases halg : alGet b.bids p with
      | none => exact absurd ((alGet_none_iff b.bids p).mp halg) (by simp [hk])
      | some q => simp
  · intro p
    rw [h.askMem p]
    constructor
    · intro hsome
      by_contra hk
      rw [(alGet_none_iff b.asks p).mpr hk] at hsome
      exact absurd hsome (by simp)
    · intro hk
      cases halg : alGet b.asks p with
      | none => exact absurd ((alGet_none_iff b.asks p).mp halg) (by simp [hk])
      | some q => simp

/-- A concrete resting buy order for exercising the invariant theorem. -/
def oC10 : Order := ⟨1, Side.buy, 10, 5, 0, 7, 0, OStatus.opn⟩

theorem orderbook_invariants_reachable_witness :
    Reach (addOrder Book.empty oC10).1 ∧
    ((addOrder Book.empty oC10).1.bid_prices.Sorted (· > ·) ∧
     (addOrder Book.empty oC10).1.ask_prices.Sorted (· < ·) ∧
     (∀ p : ℚ, p ∈ (addOrder Book.empty oC10).1.bid_prices ↔
       p ∈ alKeys (addOrder Book.empty oC10).1.bids) ∧
     (∀ p : ℚ, p ∈ (addOrder Book.empty oC10).1.ask_prices ↔
       p ∈ alKeys (addOrder Book.empty oC10).1.asks) ∧
     (∀ p q, alGet (addOrder Book.empty oC10).1.bids p = some q → q ≠ []) ∧
     (∀ p q, alGet (addOrder Book.empty oC10).1.asks p = some q → q ≠ []) ∧
     (∀ n x, alGet (addOrder Book.empty oC10).1.orders n = some x →
       x.order_id = n ∧ x ∈ restingList (addOrder Book.empty oC10).1) ∧
     (∀ x, x ∈ restingList (addOrder Book.empty oC10).1 →
       alGet (addOrder Book.empty oC10).1.orders x.order_id = some x)) :=
  have hreach : Reach (addOrder Book.empty oC10).1 :=
    Reach.place Book.empty oC10 Reach.empty
      (by simp [restingList, Book.empty, joinLevels])
  ⟨hreach, orderbook_invariants_reachable (addOrder Book.empty oC10).1 hreach⟩

end XMarket
